import Mathlib

/-!
# A verified model of the `code_gen` lexer and parser

This file gives a shallow embedding, in Lean 4, of the `code_gen` crate:
the spanned-string view, the maximal-run scanner `lex`, the token classifier
`lex_token`, full tokenization (`TokenStream::new`), and the recursive-descent
record parser `RenderPipelineConfig::parse` from `src/config.rs`.

Strings are modelled as `List Char` (a `Char` in Lean is one Unicode scalar
value, exactly Rust's `char`), and byte offsets are modelled explicitly via
the UTF-8 byte size of each code point, so the byte-offset arithmetic of the
original `SpannedStr` is reproduced faithfully.
-/

namespace CodeGen

/-- UTF-8 byte length of a character list, modelling `str::len` on the
corresponding Rust string. -/
def utf8Len : List Char → Nat
  | [] => 0
  | c :: rest => c.utf8Size + utf8Len rest

/-- Models Rust's `char::is_whitespace`, which tests the Unicode `White_Space`
property.  The `White_Space` code points are exactly the ones enumerated
here (U+0009..U+000D, U+0020, U+0085, U+00A0, U+1680, U+2000..U+200A,
U+2028, U+2029, U+202F, U+205F, U+3000), so this model is exact. -/
def isRustWhitespace (c : Char) : Bool :=
  decide ((9 ≤ c.toNat ∧ c.toNat ≤ 13) ∨ c.toNat = 32 ∨ c.toNat = 0x85 ∨
    c.toNat = 0xA0 ∨ c.toNat = 0x1680 ∨ (0x2000 ≤ c.toNat ∧ c.toNat ≤ 0x200A) ∨
    c.toNat = 0x2028 ∨ c.toNat = 0x2029 ∨ c.toNat = 0x202F ∨ c.toNat = 0x205F ∨
    c.toNat = 0x3000)

/-- Models Rust's `char::is_alphabetic`.  The Rust function tests the full
Unicode `Alphabetic` property; this model is exact on the ASCII range
(`A`-`Z`, `a`-`z`), and theorems whose truth could depend on how non-ASCII
characters are classified restrict their inputs accordingly. -/
def isRustAlphabetic (c : Char) : Bool :=
  decide ((65 ≤ c.toNat ∧ c.toNat ≤ 90) ∨ (97 ≤ c.toNat ∧ c.toNat ≤ 122))

/-- Models Rust's `char::is_alphanumeric` (`is_alphabetic` or a Unicode
numeric character); exact on the ASCII range (letters and digits). -/
def isRustAlphanumeric (c : Char) : Bool :=
  isRustAlphabetic c || decide (48 ≤ c.toNat ∧ c.toNat ≤ 57)

/-- `Span` from `src/lex.rs`: a half-open byte range. -/
structure Span where
  start_byte : Nat
  end_byte : Nat
  deriving Repr, DecidableEq

/-- `SpannedStr` from `src/lex.rs`: a borrowed buffer plus a byte span. -/
structure SpannedStr where
  src : List Char
  span : Span
  deriving Repr, DecidableEq

/-- Byte-range slicing of a character list: the characters whose UTF-8 bytes
lie inside `[a, b)`, starting the byte count at `pos`.  For offsets on
code-point boundaries (the only offsets the program ever constructs, see the
span invariant) this is exactly Rust's `&src[a..b]`; Rust panics on
non-boundary offsets, which a total model cannot. -/
def sliceBytes : List Char → Nat → Nat → Nat → List Char
  | [], _, _, _ => []
  | c :: rest, pos, a, b =>
    if pos + c.utf8Size ≤ a then sliceBytes rest (pos + c.utf8Size) a b
    else if pos + c.utf8Size ≤ b then c :: sliceBytes rest (pos + c.utf8Size) a b
    else []

namespace SpannedStr

/-- `SpannedStr::new`. -/
def new (src : List Char) (start_byte end_byte : Nat) : SpannedStr :=
  ⟨src, ⟨start_byte, end_byte⟩⟩

/-- `SpannedStr::substring`: empty when the span is degenerate
(`start_byte >= end_byte`), else the byte slice `src[start..end]`. -/
def substring (s : SpannedStr) : List Char :=
  if s.span.start_byte ≥ s.span.end_byte then []
  else sliceBytes s.src 0 s.span.start_byte s.span.end_byte

/-- `SpannedStr::remaining`: the view from the current span's end to the end
of the buffer, or `none` when nothing is left. -/
def remaining (s : SpannedStr) : Option SpannedStr :=
  if s.span.end_byte < utf8Len s.src then
    some (new s.src s.span.end_byte (utf8Len s.src))
  else none

/-- `SpannedStr::first_char`: the first code point of `substring()`. -/
def first_char (s : SpannedStr) : Option Char :=
  s.substring.head?

/-- `char_indices` of a string whose bytes start at offset `pos`: the
byte-offset/character pairs produced by Rust's `str::char_indices` (with
`pos = 0`). -/
def charIndicesFrom (pos : Nat) : List Char → List (Nat × Char)
  | [] => []
  | c :: rest => (pos, c) :: charIndicesFrom (pos + c.utf8Size) rest

/-- `SpannedStr::skip`: walk `substring().char_indices().take(n + 1)`,
remembering the last byte offset seen and counting the pairs; if fewer than
`n + 1` pairs exist the code point at index `n` does not exist and the result
is `None`, otherwise the view from that code point's byte offset to the end
of the **whole buffer** (`self.src.len()`, not the current span's end). -/
def skip (s : SpannedStr) (n : Nat) : Option SpannedStr :=
  let src := s.substring
  let start_byte := s.span.start_byte
  let taken := (charIndicesFrom 0 src).take (n + 1)
  let num := taken.length
  let new_start := match taken.getLast? with
    | some (i, _) => start_byte + i
    | none => start_byte
  if num ≤ n then none
  else some (new s.src new_start (utf8Len s.src))

/-- `From<&'a str> for SpannedStr<'a>`: the full-buffer view. -/
def fromList (cs : List Char) : SpannedStr :=
  new cs 0 (utf8Len cs)

end SpannedStr

/-- `Token` from `src/lex.rs`. -/
inductive Token where
  | Ident (payload : List Char)
  | String (payload : List Char)
  | Hash
  | Comma
  | LeftParen
  | RightParen
  | Colon
  deriving Repr, DecidableEq

/-- `LexError` from `src/lex.rs`. -/
inductive LexError where
  | EndOfInput
  | InvalidChar (c : Char)
  | NonterminatedString
  deriving Repr, DecidableEq

/-- The maximal-run scanner `lex` from `src/lex.rs`: resulting `end_byte` of
the scan loop, carrying the current byte offset `pos` and character index
`idx`. -/
def lexEnd : List Char → (Char → Nat → Bool) → Nat → Nat → Nat
  | [], _, pos, _ => pos
  | c :: rest, matcher, pos, idx =>
    if matcher c idx then lexEnd rest matcher (pos + c.utf8Size) (idx + 1)
    else pos

/-- `lex` from `src/lex.rs`: the span (starting at byte 0) of the maximal
prefix of `src` whose characters satisfy `matcher`. -/
def lex (src : List Char) (matcher : Char → Nat → Bool) : SpannedStr :=
  ⟨src, ⟨0, lexEnd src matcher 0 0⟩⟩

/-- The `match span.first_char()` classifier of `lex_token`
(`src/lex.rs`, lines 161-184): `span` is the view left after stripping
leading whitespace. -/
def lexTokenCore (span : SpannedStr) : Except LexError (Token × Option SpannedStr) :=
  match span.first_char with
  | none => .error .EndOfInput
  | some c =>
    if isRustAlphabetic c = true ∨ c = '_' then
      let data := lex span.substring (fun c _ => isRustAlphanumeric c || c == '_')
      .ok (.Ident data.substring, data.remaining)
    else if c = '#' then .ok (.Hash, span.skip 1)
    else if c = '(' then .ok (.LeftParen, span.skip 1)
    else if c = ')' then .ok (.RightParen, span.skip 1)
    else if c = ',' then .ok (.Comma, span.skip 1)
    else if c = ':' then .ok (.Colon, span.skip 1)
    else if c = '"' then
      match span.skip 1 with
      | none => .error .NonterminatedString
      | some data0 =>
        let data := lex data0.substring (fun c _ => !(c == '"') && !(c == '\n'))
        match data.remaining with
        | none => .error .NonterminatedString
        | some rem =>
          if rem.first_char = some '"' then .ok (.String data.substring, rem.skip 1)
          else .error .NonterminatedString
    else .error (.InvalidChar c)

/-- `lex_token` from `src/lex.rs`: skip a maximal run of leading whitespace
(lines 158-159; `EndOfInput` when nothing remains), then classify the next
run of characters as one token via `lexTokenCore`. -/
def lexToken (src : List Char) : Except LexError (Token × Option SpannedStr) :=
  let span := lex src (fun c _ => isRustWhitespace c)
  match span.remaining with
  | none => .error .EndOfInput
  | some span => lexTokenCore span

/-- The `while let Some(span) = remaining` loop of `TokenStream::new`.
`lex_token` is re-invoked on `span.substring()`; `EndOfInput` is a clean
stop, any other error aborts.  The Rust loop terminates because every
produced remainder is a strict suffix of the scanned text (each token
consumes at least one character), so the `fuel` argument — instantiated with
the input length by `tokenStreamNew` — never reaches zero with a remainder
still present; the fuel-zero equation is unreachable there. -/
def tsLoop : Nat → List Token → Option SpannedStr → Except LexError (List Token)
  | _, acc, none => .ok acc
  | 0, acc, some _ => .ok acc
  | fuel + 1, acc, some span =>
    match lexToken span.substring with
    | .error .EndOfInput => .ok acc
    | .error e => .error e
    | .ok (t, rem) => tsLoop fuel (acc ++ [t]) rem

/-- `TokenStream::new` from `src/lex.rs`: lex the first token (propagating
any error, `EndOfInput` included), then loop on the remaining tail.  The
cursor index starts at 0 and `peek`/`next` read the list left to right, so
the stream is modelled by its token list. -/
def tokenStreamNew (src : List Char) : Except LexError (List Token) :=
  match lexToken src with
  | .error e => .error e
  | .ok (t, rem) => tsLoop (List.length src) [t] rem

/-- `ParseError` from `src/config.rs` (the `Lex` variant wraps a lexer
error). -/
inductive ParseError where
  | Lex (e : LexError)
  | UnexpectedToken (found expected : Token)
  | UnexpectedField (f : List Char)
  | EndOfInput
  | MissingField (f : List Char)
  | ExpectedEndOfInput (t : Token)
  deriving Repr, DecidableEq

/-- `RenderPipelineConfig` from `src/config.rs`; the finalized record owns
its three strings. -/
structure RenderPipelineConfig where
  name : List Char
  vs_entry : List Char
  fs_entry : List Char
  deriving Repr, DecidableEq

/-- The three optional field slots accumulated during parsing, in
declaration order `name`, `vs_entry`, `fs_entry`. -/
abbrev Slots := Option (List Char) × Option (List Char) × Option (List Char)

/-- `expect_token` from `src/config.rs`: consume one token and compare. -/
def expect_token (tokens : List Token) (expected : Token) :
    Except ParseError (List Token) :=
  match tokens with
  | t :: rest =>
    if t = expected then .ok rest
    else .error (.UnexpectedToken t expected)
  | [] => .error .EndOfInput

/-- The `parse_ident` closure in `RenderPipelineConfig::parse`. -/
def parse_ident (tokens : List Token) : Except ParseError (List Char × List Token) :=
  match tokens with
  | .Ident id :: rest => .ok (id, rest)
  | t :: _ => .error (.UnexpectedToken t (.Ident "ident_name".toList))
  | [] => .error .EndOfInput

/-- The `parse_field` closure in `RenderPipelineConfig::parse`: consume an
identifier, select the slot it names (`UnexpectedField` if unknown — checked
before the colon, as in the source), consume `:`, then consume a string
literal into that slot (overwriting any previous value). -/
def parse_field (slots : Slots) (tokens : List Token) :
    Except ParseError (Slots × List Token) :=
  match parse_ident tokens with
  | .error e => .error e
  | .ok (id, tokens) =>
    let setter : Except ParseError (List Char → Slots) :=
      if id = "name".toList then .ok fun s => (some s, slots.2.1, slots.2.2)
      else if id = "vs_entry".toList then .ok fun s => (slots.1, some s, slots.2.2)
      else if id = "fs_entry".toList then .ok fun s => (slots.1, slots.2.1, some s)
      else .error (.UnexpectedField id)
    match setter with
    | .error e => .error e
    | .ok set =>
      match expect_token tokens .Colon with
      | .error e => .error e
      | .ok tokens =>
        match tokens with
        | .String s :: rest => .ok (set s, rest)
        | t :: _ => .error (.UnexpectedToken t (.String "Some String".toList))
        | [] => .error .EndOfInput

/-- The `while let Some(Comma) = tokens.peek()` loop in `parse_struct`:
consume the comma; stop if a `)` follows (trailing comma), else parse
another field.  Each iteration consumes at least the comma, so with
`fuel = tokens.length` (as supplied by `parse_struct`) the fuel-zero
equation is unreachable. -/
def parse_fields : Nat → Slots → List Token → Except ParseError (Slots × List Token)
  | 0, slots, tokens => .ok (slots, tokens)
  | fuel + 1, slots, tokens =>
    match tokens with
    | .Comma :: rest =>
      match rest with
      | .RightParen :: _ => .ok (slots, rest)
      | _ =>
        match parse_field slots rest with
        | .error e => .error e
        | .ok (slots, tokens) => parse_fields fuel slots tokens
    | _ => .ok (slots, tokens)

/-- The `parse_struct` closure in `RenderPipelineConfig::parse`: `(`, an
optional field list (entered only when an identifier follows), then `)`. -/
def parse_struct (tokens : List Token) : Except ParseError (Slots × List Token) :=
  match expect_token tokens .LeftParen with
  | .error e => .error e
  | .ok tokens =>
    let fieldsRes : Except ParseError (Slots × List Token) :=
      match tokens with
      | .Ident _ :: _ =>
        match parse_field (none, none, none) tokens with
        | .error e => .error e
        | .ok (slots, tokens) => parse_fields tokens.length slots tokens
      | _ => .ok ((none, none, none), tokens)
    match fieldsRes with
    | .error e => .error e
    | .ok (slots, tokens) =>
      match expect_token tokens .RightParen with
      | .error e => .error e
      | .ok tokens => .ok (slots, tokens)

/-- The body of `RenderPipelineConfig::parse` up to (and excluding) the
final record construction: tokenize, expect `#` and `render_pipeline`,
parse the parenthesized field list, and require the stream exhausted. -/
def parse_body (src : List Char) : Except ParseError Slots :=
  match tokenStreamNew src with
  | .error e => .error (.Lex e)
  | .ok tokens =>
    match expect_token tokens .Hash with
    | .error e => .error e
    | .ok tokens =>
      match expect_token tokens (.Ident "render_pipeline".toList) with
      | .error e => .error e
      | .ok tokens =>
        match parse_struct tokens with
        | .error e => .error e
        | .ok (slots, tokens) =>
          match tokens with
          | t :: _ => .error (.ExpectedEndOfInput t)
          | [] => .ok slots

/-- The final record construction of `RenderPipelineConfig::parse`: the
three `ok_or_else(MissingField)` extractions, evaluated in declaration
order `name`, `vs_entry`, `fs_entry`. -/
def finalize (slots : Slots) : Except ParseError RenderPipelineConfig :=
  match slots.1 with
  | none => .error (.MissingField "name".toList)
  | some name =>
    match slots.2.1 with
    | none => .error (.MissingField "vs_entry".toList)
    | some vs_entry =>
      match slots.2.2 with
      | none => .error (.MissingField "fs_entry".toList)
      | some fs_entry => .ok ⟨name, vs_entry, fs_entry⟩

/-- `RenderPipelineConfig::parse` from `src/config.rs`. -/
def RenderPipelineConfig.parse (src : List Char) : Except ParseError RenderPipelineConfig :=
  match parse_body src with
  | .error e => .error e
  | .ok slots => finalize slots

/-! ## Verification-interface definitions

The definitions below are not part of the source program; they are the
vocabulary in which its properties are stated: canonical view shapes, the
span well-formedness predicate of the specification, a description of
complete tokenizer runs, and concrete input builders. -/

/-- The view whose span covers exactly the suffix `suf` of the buffer
`pre ++ suf`; every view produced by `remaining` and `skip` has this shape. -/
def suffixView (pre suf : List Char) : SpannedStr :=
  ⟨pre ++ suf, ⟨utf8Len pre, utf8Len (pre ++ suf)⟩⟩

/-- A complete run of the `TokenStream::new` loop: starting from the
remainder `rem`, the loop lexes exactly the tokens `ts` (each step consumes
the substring of the current view) and then stops cleanly — either because
the remainder is exhausted or because the next `lex_token` call reports
`EndOfInput`. -/
inductive TokRun : Option SpannedStr → List Token → Prop where
  | stop : TokRun none []
  | eoi (sp : SpannedStr) : lexToken sp.substring = .error .EndOfInput → TokRun (some sp) []
  | step (sp : SpannedStr) (t : Token) (rem : Option SpannedStr) (ts : List Token) :
      lexToken sp.substring = .ok (t, rem) → TokRun rem ts → TokRun (some sp) (t :: ts)

/-- The shape of every `Ident` payload the lexer produces: nonempty, the
head alphabetic or `_`, and every character alphanumeric or `_`. -/
def IdentShape (p : List Char) : Prop :=
  ∃ c cs, p = c :: cs ∧ (isRustAlphabetic c = true ∨ c = '_') ∧
    ∀ x ∈ p, (isRustAlphanumeric x || x == '_') = true

/-- `b` is the UTF-8 byte offset of a code-point boundary of `cs`. -/
def isBoundary : List Char → Nat → Bool
  | _, 0 => true
  | [], _ + 1 => false
  | c :: rest, b + 1 =>
    if c.utf8Size ≤ b + 1 then isBoundary rest (b + 1 - c.utf8Size) else false

/-- The span invariant stated by the specification:
`start_byte <= end_byte <= len(buffer)`, both offsets on code-point
boundaries. -/
def ValidSpan (s : SpannedStr) : Prop :=
  s.span.start_byte ≤ s.span.end_byte ∧ s.span.end_byte ≤ utf8Len s.src ∧
  isBoundary s.src s.span.start_byte = true ∧ isBoundary s.src s.span.end_byte = true

instance (s : SpannedStr) : Decidable (ValidSpan s) := by
  unfold ValidSpan
  infer_instance

/-- One `field: "value"` item of the concrete record syntax. -/
def buildField (f s : List Char) : List Char :=
  f ++ ':' :: ' ' :: '"' :: (s ++ ['"'])

/-- The concrete record text
`#render_pipeline(f1: "s1", f2: "s2", f3: "s3"[,])`, with the three fields
in the order given and an optional trailing comma. -/
def buildInput (f1 s1 f2 s2 f3 s3 : List Char) (trailing : Bool) : List Char :=
  '#' :: ("render_pipeline".toList ++
    '(' :: (buildField f1 s1 ++
      ',' :: ' ' :: (buildField f2 s2 ++
        ',' :: ' ' :: (buildField f3 s3 ++
          ((if trailing then [','] else []) ++ [')'])))))

/-- The content bound to field `key` when `f1, f2, f3` are bound to
`s1, s2, s3` in that textual order (later bindings shadow earlier ones
read right to left, matching last-wins overwrite order when keys repeat —
for distinct keys this is a plain lookup). -/
def fieldValue (f1 : List Char) (s1 : List Char) (f2 : List Char) (s2 : List Char)
    (f3 : List Char) (s3 : List Char) (key : List Char) : List Char :=
  if f3 = key then s3 else if f2 = key then s2 else if f1 = key then s1 else []

instance {ε α : Type} [DecidableEq ε] [DecidableEq α] : DecidableEq (Except ε α) := fun a b =>
  match a, b with
  | .error e, .error f =>
    if h : e = f then .isTrue (by rw [h]) else .isFalse (by intro hh; cases hh; exact h rfl)
  | .ok x, .ok y =>
    if h : x = y then .isTrue (by rw [h]) else .isFalse (by intro hh; cases hh; exact h rfl)
  | .error _, .ok _ => .isFalse (by intro hh; cases hh)
  | .ok _, .error _ => .isFalse (by intro hh; cases hh)

/-! ## Basic facts about byte lengths and slices -/

theorem utf8Len_append (xs ys : List Char) :
    utf8Len (xs ++ ys) = utf8Len xs + utf8Len ys := by
  induction xs with
  | nil => simp [utf8Len]
  | cons c rest ih => simp [utf8Len, ih]; omega

theorem utf8Len_pos {cs : List Char} (h : cs ≠ []) : 0 < utf8Len cs := by
  cases cs with
  | nil => exact absurd rfl h
  | cons c rest =>
    have := c.utf8Size_pos
    simp [utf8Len]; omega

theorem utf8Len_eq_zero {cs : List Char} : utf8Len cs = 0 ↔ cs = [] := by
  constructor
  · intro h
    by_contra hne
    have := utf8Len_pos hne
    omega
  · rintro rfl; rfl

theorem sliceBytes_drop (pre rest : List Char) (pos a b : Nat)
    (h : pos + utf8Len pre ≤ a) :
    sliceBytes (pre ++ rest) pos a b = sliceBytes rest (pos + utf8Len pre) a b := by
  induction pre generalizing pos with
  | nil => simp [utf8Len]
  | cons c pre ih =>
    have hc : pos + c.utf8Size ≤ a := by
      simp [utf8Len] at h; omega
    have step : sliceBytes ((c :: pre) ++ rest) pos a b
        = sliceBytes (pre ++ rest) (pos + c.utf8Size) a b := by
      rw [List.cons_append, sliceBytes, if_pos hc]
    rw [step, ih (pos + c.utf8Size) (by simp [utf8Len] at h ⊢; omega)]
    congr 1
    simp [utf8Len]; omega

theorem sliceBytes_take (mid suf : List Char) (pos a b : Nat)
    (ha : a ≤ pos) (hb : pos + utf8Len mid ≤ b) :
    sliceBytes (mid ++ suf) pos a b = mid ++ sliceBytes suf (pos + utf8Len mid) a b := by
  induction mid generalizing pos with
  | nil => simp [utf8Len]
  | cons c mid ih =>
    have hsz := c.utf8Size_pos
    have h1 : ¬ pos + c.utf8Size ≤ a := by omega
    have h2 : pos + c.utf8Size ≤ b := by simp [utf8Len] at hb; omega
    have step : sliceBytes ((c :: mid) ++ suf) pos a b
        = c :: sliceBytes (mid ++ suf) (pos + c.utf8Size) a b := by
      rw [List.cons_append, sliceBytes, if_neg h1, if_pos h2]
    rw [step, ih (pos + c.utf8Size) (by omega) (by simp [utf8Len] at hb ⊢; omega)]
    have harg : pos + c.utf8Size + utf8Len mid = pos + utf8Len (c :: mid) := by
      simp [utf8Len]; omega
    rw [harg, List.cons_append]

theorem sliceBytes_stop (cs : List Char) (pos a b : Nat)
    (ha : a ≤ pos) (hb : b ≤ pos) :
    sliceBytes cs pos a b = [] := by
  cases cs with
  | nil => rfl
  | cons c rest =>
    have hsz := c.utf8Size_pos
    simp only [sliceBytes, if_neg (by omega : ¬ pos + c.utf8Size ≤ a),
      if_neg (by omega : ¬ pos + c.utf8Size ≤ b)]

/-- Master slicing lemma: a span from the end of `pre` to the end of
`pre ++ mid` extracts exactly `mid`. -/
theorem substring_decomp (pre mid suf : List Char) :
    SpannedStr.substring ⟨pre ++ mid ++ suf, ⟨utf8Len pre, utf8Len pre + utf8Len mid⟩⟩ = mid := by
  by_cases hm : mid = []
  · subst hm
    simp [SpannedStr.substring, utf8Len]
  · have hpos : 0 < utf8Len mid := utf8Len_pos hm
    rw [SpannedStr.substring]
    simp only [ge_iff_le]
    rw [if_neg (by omega)]
    have h1 := sliceBytes_drop pre (mid ++ suf) 0 (utf8Len pre) (utf8Len pre + utf8Len mid)
      (by omega)
    rw [List.append_assoc, h1]
    rw [sliceBytes_take mid suf (0 + utf8Len pre) (utf8Len pre) (utf8Len pre + utf8Len mid)
      (by omega) (by omega)]
    rw [sliceBytes_stop suf _ _ _ (by omega) (by omega)]
    simp

theorem substring_suffixView (pre suf : List Char) :
    (suffixView pre suf).substring = suf := by
  have := substring_decomp pre suf []
  simpa [suffixView, utf8Len_append] using this

theorem substring_prefixView (mid suf : List Char) :
    SpannedStr.substring ⟨mid ++ suf, ⟨0, utf8Len mid⟩⟩ = mid := by
  have := substring_decomp [] mid suf
  simpa [utf8Len] using this

theorem substring_fromList (cs : List Char) :
    (SpannedStr.fromList cs).substring = cs := by
  have := substring_decomp [] cs []
  simpa [SpannedStr.fromList, SpannedStr.new, utf8Len] using this

theorem fromList_eq_suffixView (cs : List Char) :
    SpannedStr.fromList cs = suffixView [] cs := by
  simp [SpannedStr.fromList, SpannedStr.new, suffixView, utf8Len]

/-! ## Characterizations of `remaining`, `first_char`, `skip` and `lex` -/

theorem remaining_prefixView (mid suf : List Char) :
    SpannedStr.remaining ⟨mid ++ suf, ⟨0, utf8Len mid⟩⟩ =
      if suf.isEmpty then none else some (suffixView mid suf) := by
  rw [SpannedStr.remaining]
  by_cases h : suf = []
  · subst h
    simp [utf8Len_append]
  · have : 0 < utf8Len suf := utf8Len_pos h
    rw [if_pos (by simp [utf8Len_append]; omega)]
    simp [suffixView, SpannedStr.new, List.isEmpty_iff, h]

theorem remaining_suffixView (pre suf : List Char) :
    (suffixView pre suf).remaining = none := by
  simp [suffixView, SpannedStr.remaining]

theorem first_char_eq (s : SpannedStr) : s.first_char = s.substring.head? := rfl

theorem charIndicesFrom_length (pos : Nat) (cs : List Char) :
    (SpannedStr.charIndicesFrom pos cs).length = cs.length := by
  induction cs generalizing pos with
  | nil => rfl
  | cons c rest ih => simp [SpannedStr.charIndicesFrom, ih]

theorem charIndicesFrom_take_getLast (cs : List Char) (pos n : Nat) (h : n < cs.length) :
    ∃ y, ((SpannedStr.charIndicesFrom pos cs).take (n + 1)).getLast? =
      some (pos + utf8Len (cs.take n), y) := by
  induction cs generalizing pos n with
  | nil => simp at h
  | cons c rest ih =>
    cases n with
    | zero => exact ⟨c, by simp [SpannedStr.charIndicesFrom, utf8Len]⟩
    | succ n =>
      have hn : n < rest.length := by simpa using h
      obtain ⟨y, hy⟩ := ih (pos + c.utf8Size) n hn
      refine ⟨y, ?_⟩
      simp only [SpannedStr.charIndicesFrom, List.take_succ_cons]
      cases hl : (SpannedStr.charIndicesFrom (pos + c.utf8Size) rest).take (n + 1) with
      | nil => rw [hl] at hy; simp at hy
      | cons x xs =>
        rw [hl] at hy
        rw [List.getLast?_cons_cons, hy]
        simp [utf8Len]
        omega

theorem skip_eq (s : SpannedStr) (n : Nat) :
    s.skip n = if s.substring.length ≤ n then none
      else some (SpannedStr.new s.src
        (s.span.start_byte + utf8Len (s.substring.take n)) (utf8Len s.src)) := by
  by_cases h : s.substring.length ≤ n
  · rw [if_pos h]
    have hlen : ((SpannedStr.charIndicesFrom 0 s.substring).take (n + 1)).length ≤ n := by
      simp [charIndicesFrom_length]; omega
    simp only [SpannedStr.skip]
    rw [if_pos hlen]
  · rw [if_neg h]
    obtain ⟨y, hy⟩ := charIndicesFrom_take_getLast s.substring 0 n (by omega)
    have hlen : ¬ ((SpannedStr.charIndicesFrom 0 s.substring).take (n + 1)).length ≤ n := by
      simp [charIndicesFrom_length]; omega
    simp only [SpannedStr.skip, hy]
    rw [if_neg hlen]
    simp

theorem skip_suffixView (pre suf : List Char) (n : Nat) :
    (suffixView pre suf).skip n =
      if suf.length ≤ n then none
      else some (suffixView (pre ++ suf.take n) (suf.drop n)) := by
  rw [skip_eq]
  rw [substring_suffixView]
  by_cases h : suf.length ≤ n
  · rw [if_pos h, if_pos h]
  · rw [if_neg h, if_neg h]
    have hts : (pre ++ suf.take n) ++ suf.drop n = pre ++ suf := by
      rw [List.append_assoc, List.take_append_drop]
    simp only [suffixView, SpannedStr.new, hts, utf8Len_append]

/-! ## Characterization of the maximal-run scanner -/

theorem lexEnd_eq (cs : List Char) (m : Char → Bool) (pos idx : Nat) :
    lexEnd cs (fun c _ => m c) pos idx = pos + utf8Len (cs.takeWhile m) := by
  induction cs generalizing pos idx with
  | nil => simp [lexEnd, utf8Len]
  | cons c rest ih =>
    by_cases hc : m c
    · have step : lexEnd (c :: rest) (fun c _ => m c) pos idx
          = lexEnd rest (fun c _ => m c) (pos + c.utf8Size) (idx + 1) := by
        rw [lexEnd, if_pos hc]
      rw [step, ih]
      simp [List.takeWhile_cons, hc, utf8Len]
      omega
    · simp [lexEnd, hc, List.takeWhile_cons, utf8Len]

theorem lex_eq (cs : List Char) (m : Char → Bool) :
    lex cs (fun c _ => m c) = ⟨cs, ⟨0, utf8Len (cs.takeWhile m)⟩⟩ := by
  simp [lex, lexEnd_eq]

theorem takeWhile_append_of (m : Char → Bool) (xs ys : List Char)
    (hx : ∀ x ∈ xs, m x = true) (hy : ∀ y, ys.head? = some y → m y = false) :
    (xs ++ ys).takeWhile m = xs := by
  induction xs with
  | nil =>
    cases ys with
    | nil => rfl
    | cons y t => simp [List.takeWhile_cons, hy y rfl]
  | cons x xs ih =>
    simp only [List.cons_append, List.takeWhile_cons, hx x (by simp)]
    rw [ih (fun a ha => hx a (by simp [ha]))]
    simp

theorem dropWhile_append_of (m : Char → Bool) (xs ys : List Char)
    (hx : ∀ x ∈ xs, m x = true) (hy : ∀ y, ys.head? = some y → m y = false) :
    (xs ++ ys).dropWhile m = ys := by
  induction xs with
  | nil =>
    cases ys with
    | nil => rfl
    | cons y t => simp [List.dropWhile_cons, hy y rfl]
  | cons x xs ih =>
    simp only [List.cons_append, List.dropWhile_cons, hx x (by simp)]
    rw [ih (fun a ha => hx a (by simp [ha]))]
    simp

theorem takeWhile_of_all (m : Char → Bool) (xs : List Char)
    (hx : ∀ x ∈ xs, m x = true) : xs.takeWhile m = xs := by
  have := takeWhile_append_of m xs [] hx (by simp)
  simpa using this

/-! ## Character-class facts -/

theorem identChar_not_ws {c : Char} (h : (isRustAlphanumeric c || c == '_') = true) :
    isRustWhitespace c = false := by
  rcases Bool.or_eq_true_iff.mp h with h' | h'
  · simp only [isRustAlphanumeric, isRustAlphabetic, Bool.or_eq_true,
      decide_eq_true_eq] at h'
    simp only [isRustWhitespace, decide_eq_false_iff_not]
    omega
  · have : c = '_' := by simpa using h'
    subst this
    decide

theorem alpha_identChar {c : Char} (h : isRustAlphabetic c = true ∨ c = '_') :
    (isRustAlphanumeric c || c == '_') = true := by
  rcases h with h | h
  · simp [isRustAlphanumeric, h]
  · subst h; decide

/-! ## Shape of `lex_token` on decomposed inputs -/

theorem lexToken_eq_core (ws X : List Char)
    (hws : ∀ x ∈ ws, isRustWhitespace x = true)
    (hX : ∀ y, X.head? = some y → isRustWhitespace y = false)
    (hne : X ≠ []) :
    lexToken (ws ++ X) = lexTokenCore (suffixView ws X) := by
  rw [lexToken]
  rw [lex_eq (ws ++ X) isRustWhitespace]
  rw [takeWhile_append_of isRustWhitespace ws X hws hX]
  have : SpannedStr.remaining ⟨ws ++ X, ⟨0, utf8Len ws⟩⟩ =
      if X.isEmpty then none else some (suffixView ws X) := remaining_prefixView ws X
  rw [this, if_neg (by simpa [List.isEmpty_iff] using hne)]

theorem lexToken_all_ws (cs : List Char) (h : ∀ x ∈ cs, isRustWhitespace x = true) :
    lexToken cs = .error .EndOfInput := by
  rw [lexToken]
  rw [lex_eq cs isRustWhitespace, takeWhile_of_all isRustWhitespace cs h]
  rw [show SpannedStr.remaining ⟨cs, ⟨0, utf8Len cs⟩⟩ = none from by
    simp [SpannedStr.remaining]]

theorem first_char_suffixView (pre suf : List Char) :
    (suffixView pre suf).first_char = suf.head? := by
  rw [first_char_eq, substring_suffixView]

theorem skip_one_cons (pre : List Char) (c : Char) (rest : List Char) :
    (suffixView pre (c :: rest)).skip 1 =
      if rest.isEmpty then none else some (suffixView (pre ++ [c]) rest) := by
  rw [skip_suffixView]
  cases rest with
  | nil => simp
  | cons r rs => simp

theorem core_punct (pre : List Char) (c : Char) (rest : List Char) (t : Token)
    (hct : (c, t) ∈ [('#', Token.Hash), ('(', Token.LeftParen), (')', Token.RightParen),
      (',', Token.Comma), (':', Token.Colon)]) :
    lexTokenCore (suffixView pre (c :: rest)) =
      .ok (t, if rest.isEmpty then none else some (suffixView (pre ++ [c]) rest)) := by
  have hskip := skip_one_cons pre c rest
  simp only [List.mem_cons, List.not_mem_nil, or_false, Prod.mk.injEq] at hct
  rcases hct with ⟨rfl, rfl⟩ | ⟨rfl, rfl⟩ | ⟨rfl, rfl⟩ | ⟨rfl, rfl⟩ | ⟨rfl, rfl⟩ <;>
  · rw [lexTokenCore, first_char_suffixView]
    simp only [List.head?_cons]
    simp only [hskip]
    simp
    all_goals decide

theorem core_ident (pre : List Char) (c : Char) (cs rest : List Char)
    (hc : isRustAlphabetic c = true ∨ c = '_')
    (hcs : ∀ x ∈ c :: cs, (isRustAlphanumeric x || x == '_') = true)
    (hrest : ∀ y, rest.head? = some y → (isRustAlphanumeric y || y == '_') = false) :
    lexTokenCore (suffixView pre (c :: (cs ++ rest))) =
      .ok (.Ident (c :: cs), if rest.isEmpty then none else some (suffixView (c :: cs) rest)) := by
  have hlex : lex (suffixView pre (c :: (cs ++ rest))).substring
        (fun c _ => isRustAlphanumeric c || c == '_') =
      ⟨c :: (cs ++ rest), ⟨0, utf8Len (c :: cs)⟩⟩ := by
    rw [substring_suffixView]
    rw [lex_eq (c :: (cs ++ rest)) (fun c => isRustAlphanumeric c || c == '_')]
    rw [show (c :: (cs ++ rest) : List Char) = (c :: cs) ++ rest by simp]
    rw [takeWhile_append_of _ (c :: cs) rest hcs hrest]
  have hsub : SpannedStr.substring ⟨c :: (cs ++ rest), ⟨0, utf8Len (c :: cs)⟩⟩ = c :: cs := by
    rw [show (c :: (cs ++ rest) : List Char) = (c :: cs) ++ rest by simp]
    exact substring_prefixView (c :: cs) rest
  have hrem : SpannedStr.remaining ⟨c :: (cs ++ rest), ⟨0, utf8Len (c :: cs)⟩⟩ =
      if rest.isEmpty then none else some (suffixView (c :: cs) rest) := by
    rw [show (c :: (cs ++ rest) : List Char) = (c :: cs) ++ rest by simp]
    exact remaining_prefixView (c :: cs) rest
  rw [lexTokenCore, first_char_suffixView]
  simp only [List.head?_cons]
  rw [if_pos hc]
  simp only [hlex, hsub, hrem]

theorem core_string_ok (pre content rest : List Char)
    (hcontent : ∀ x ∈ content, x ≠ '"' ∧ x ≠ '\n') :
    lexTokenCore (suffixView pre ('"' :: (content ++ '"' :: rest))) =
      .ok (.String content,
        if rest.isEmpty then none else some (suffixView (content ++ ['"']) rest)) := by
  have hcM : ∀ x ∈ content, (!(x == '"') && !(x == '\n')) = true := by
    intro x hx
    obtain ⟨h1, h2⟩ := hcontent x hx
    simp [h1, h2]
  have hskip1 : (suffixView pre ('"' :: (content ++ '"' :: rest))).skip 1 =
      some (suffixView (pre ++ ['"']) (content ++ '"' :: rest)) := by
    rw [skip_one_cons]
    simp
  have hlex : lex (suffixView (pre ++ ['"']) (content ++ '"' :: rest)).substring
        (fun c _ => !(c == '"') && !(c == '\n')) =
      ⟨content ++ '"' :: rest, ⟨0, utf8Len content⟩⟩ := by
    rw [substring_suffixView]
    rw [lex_eq (content ++ '"' :: rest) (fun c => !(c == '"') && !(c == '\n'))]
    rw [takeWhile_append_of _ content ('"' :: rest) hcM
      (by intro y hy; simp at hy; subst hy; decide)]
  have hrem : SpannedStr.remaining ⟨content ++ '"' :: rest, ⟨0, utf8Len content⟩⟩ =
      some (suffixView content ('"' :: rest)) := by
    rw [remaining_prefixView]
    simp
  have hfc : (suffixView content ('"' :: rest)).first_char = some '"' := by
    rw [first_char_suffixView]
    simp
  have hsub : SpannedStr.substring ⟨content ++ '"' :: rest, ⟨0, utf8Len content⟩⟩ = content :=
    substring_prefixView content ('"' :: rest)
  have hskip2 : (suffixView content ('"' :: rest)).skip 1 =
      if rest.isEmpty then none else some (suffixView (content ++ ['"']) rest) :=
    skip_one_cons content '"' rest
  rw [lexTokenCore, first_char_suffixView]
  simp only [List.head?_cons]
  rw [if_neg (show ¬(isRustAlphabetic '"' = true ∨ '"' = '_') by decide)]
  simp only [hskip1, hlex, hrem, hfc, hsub, hskip2]
  simp

theorem core_string_eof (pre content : List Char)
    (hcontent : ∀ x ∈ content, x ≠ '"' ∧ x ≠ '\n') :
    lexTokenCore (suffixView pre ('"' :: content)) = .error .NonterminatedString := by
  have hcM : ∀ x ∈ content, (!(x == '"') && !(x == '\n')) = true := by
    intro x hx
    obtain ⟨h1, h2⟩ := hcontent x hx
    simp [h1, h2]
  rw [lexTokenCore, first_char_suffixView]
  simp only [List.head?_cons]
  rw [if_neg (show ¬(isRustAlphabetic '"' = true ∨ '"' = '_') by decide)]
  cases content with
  | nil =>
    have hskip1 : (suffixView pre ['"']).skip 1 = none := by
      rw [skip_one_cons]
      simp
    simp only [hskip1]
    simp
  | cons x xs =>
    have hskip1 : (suffixView pre ('"' :: (x :: xs))).skip 1 =
        some (suffixView (pre ++ ['"']) (x :: xs)) := by
      rw [skip_one_cons]
      simp
    have hlex : lex (suffixView (pre ++ ['"']) (x :: xs)).substring
          (fun c _ => !(c == '"') && !(c == '\n')) =
        ⟨x :: xs, ⟨0, utf8Len (x :: xs)⟩⟩ := by
      rw [substring_suffixView]
      rw [lex_eq (x :: xs) (fun c => !(c == '"') && !(c == '\n'))]
      rw [takeWhile_of_all _ (x :: xs) hcM]
    have hrem : SpannedStr.remaining ⟨x :: xs, ⟨0, utf8Len (x :: xs)⟩⟩ = none := by
      simp [SpannedStr.remaining]
    simp only [hskip1, hlex, hrem]
    simp

theorem core_string_newline (pre content rest : List Char)
    (hcontent : ∀ x ∈ content, x ≠ '"' ∧ x ≠ '\n') :
    lexTokenCore (suffixView pre ('"' :: (content ++ '\n' :: rest))) =
      .error .NonterminatedString := by
  have hcM : ∀ x ∈ content, (!(x == '"') && !(x == '\n')) = true := by
    intro x hx
    obtain ⟨h1, h2⟩ := hcontent x hx
    simp [h1, h2]
  have hskip1 : (suffixView pre ('"' :: (content ++ '\n' :: rest))).skip 1 =
      some (suffixView (pre ++ ['"']) (content ++ '\n' :: rest)) := by
    rw [skip_one_cons]
    simp
  have hlex : lex (suffixView (pre ++ ['"']) (content ++ '\n' :: rest)).substring
        (fun c _ => !(c == '"') && !(c == '\n')) =
      ⟨content ++ '\n' :: rest, ⟨0, utf8Len content⟩⟩ := by
    rw [substring_suffixView]
    rw [lex_eq (content ++ '\n' :: rest) (fun c => !(c == '"') && !(c == '\n'))]
    rw [takeWhile_append_of _ content ('\n' :: rest) hcM
      (by intro y hy; simp at hy; subst hy; decide)]
  have hrem : SpannedStr.remaining ⟨content ++ '\n' :: rest, ⟨0, utf8Len content⟩⟩ =
      some (suffixView content ('\n' :: rest)) := by
    rw [remaining_prefixView]
    simp
  have hfc : (suffixView content ('\n' :: rest)).first_char = some '\n' := by
    rw [first_char_suffixView]
    simp
  rw [lexTokenCore, first_char_suffixView]
  simp only [List.head?_cons]
  rw [if_neg (show ¬(isRustAlphabetic '"' = true ∨ '"' = '_') by decide)]
  simp only [hskip1, hlex, hrem, hfc]
  simp

theorem lexToken_punct (ws : List Char) (c : Char) (rest : List Char) (t : Token)
    (hws : ∀ x ∈ ws, isRustWhitespace x = true)
    (hct : (c, t) ∈ [('#', Token.Hash), ('(', Token.LeftParen), (')', Token.RightParen),
      (',', Token.Comma), (':', Token.Colon)]) :
    lexToken (ws ++ c :: rest) =
      .ok (t, if rest.isEmpty then none else some (suffixView (ws ++ [c]) rest)) := by
  have hcws : isRustWhitespace c = false := by
    simp only [List.mem_cons, List.not_mem_nil, or_false, Prod.mk.injEq] at hct
    rcases hct with ⟨rfl, -⟩ | ⟨rfl, -⟩ | ⟨rfl, -⟩ | ⟨rfl, -⟩ | ⟨rfl, -⟩ <;> decide
  rw [lexToken_eq_core ws (c :: rest) hws
    (by intro y hy; simp at hy; subst hy; exact hcws) (by simp)]
  exact core_punct ws c rest t hct

theorem lexToken_ident (ws : List Char) (c : Char) (cs rest : List Char)
    (hws : ∀ x ∈ ws, isRustWhitespace x = true)
    (hc : isRustAlphabetic c = true ∨ c = '_')
    (hcs : ∀ x ∈ c :: cs, (isRustAlphanumeric x || x == '_') = true)
    (hrest : ∀ y, rest.head? = some y → (isRustAlphanumeric y || y == '_') = false) :
    lexToken (ws ++ c :: (cs ++ rest)) =
      .ok (.Ident (c :: cs), if rest.isEmpty then none else some (suffixView (c :: cs) rest)) := by
  rw [lexToken_eq_core ws (c :: (cs ++ rest)) hws
    (by intro y hy; simp at hy; subst hy; exact identChar_not_ws (alpha_identChar hc))
    (by simp)]
  exact core_ident ws c cs rest hc hcs hrest

theorem lexToken_string_ok (ws content rest : List Char)
    (hws : ∀ x ∈ ws, isRustWhitespace x = true)
    (hcontent : ∀ x ∈ content, x ≠ '"' ∧ x ≠ '\n') :
    lexToken (ws ++ '"' :: (content ++ '"' :: rest)) =
      .ok (.String content,
        if rest.isEmpty then none else some (suffixView (content ++ ['"']) rest)) := by
  rw [lexToken_eq_core ws ('"' :: (content ++ '"' :: rest)) hws
    (by intro y hy; simp at hy; subst hy; decide) (by simp)]
  exact core_string_ok ws content rest hcontent

theorem lexToken_string_eof (ws content : List Char)
    (hws : ∀ x ∈ ws, isRustWhitespace x = true)
    (hcontent : ∀ x ∈ content, x ≠ '"' ∧ x ≠ '\n') :
    lexToken (ws ++ '"' :: content) = .error .NonterminatedString := by
  rw [lexToken_eq_core ws ('"' :: content) hws
    (by intro y hy; simp at hy; subst hy; decide) (by simp)]
  exact core_string_eof ws content hcontent

theorem lexToken_string_newline (ws content rest : List Char)
    (hws : ∀ x ∈ ws, isRustWhitespace x = true)
    (hcontent : ∀ x ∈ content, x ≠ '"' ∧ x ≠ '\n') :
    lexToken (ws ++ '"' :: (content ++ '\n' :: rest)) = .error .NonterminatedString := by
  rw [lexToken_eq_core ws ('"' :: (content ++ '\n' :: rest)) hws
    (by intro y hy; simp at hy; subst hy; decide) (by simp)]
  exact core_string_newline ws content rest hcontent

theorem core_invalid (pre : List Char) (c : Char) (rest : List Char)
    (h1 : isRustAlphabetic c = false) (h2 : c ≠ '_')
    (h3 : c ∉ (['#', '(', ')', ',', ':', '"'] : List Char)) :
    lexTokenCore (suffixView pre (c :: rest)) = .error (.InvalidChar c) := by
  simp only [List.mem_cons, not_or] at h3
  obtain ⟨n1, n2, n3, n4, n5, n6, -⟩ := h3
  rw [lexTokenCore, first_char_suffixView]
  simp only [List.head?_cons]
  rw [if_neg (by simp [h1, h2]), if_neg n1, if_neg n2, if_neg n3, if_neg n4,
    if_neg n5, if_neg n6]

theorem lexToken_invalid (ws : List Char) (c : Char) (rest : List Char)
    (hws : ∀ x ∈ ws, isRustWhitespace x = true)
    (hcws : isRustWhitespace c = false)
    (h1 : isRustAlphabetic c = false) (h2 : c ≠ '_')
    (h3 : c ∉ (['#', '(', ')', ',', ':', '"'] : List Char)) :
    lexToken (ws ++ c :: rest) = .error (.InvalidChar c) := by
  rw [lexToken_eq_core ws (c :: rest) hws
    (by intro y hy; simp at hy; subst hy; exact hcws) (by simp)]
  exact core_invalid ws c rest h1 h2 h3

/-! ## The tokenization loop -/

theorem tsLoop_of_tokRun {rem : Option SpannedStr} {ts : List Token} (h : TokRun rem ts) :
    ∀ fuel acc, ts.length ≤ fuel → tsLoop fuel acc rem = .ok (acc ++ ts) := by
  induction h with
  | stop =>
    intro fuel acc _
    cases fuel <;> simp [tsLoop]
  | eoi sp h =>
    intro fuel acc hf
    cases fuel with
    | zero => simp [tsLoop]
    | succ f => simp [tsLoop, h]
  | step sp t rem ts h hrun ih =>
    intro fuel acc hf
    cases fuel with
    | zero => simp at hf
    | succ f =>
      have hstep : tsLoop (f + 1) acc (some sp) = tsLoop f (acc ++ [t]) rem := by
        simp [tsLoop, h]
      rw [hstep, ih f (acc ++ [t]) (by simp at hf; omega)]
      simp

theorem tokenStreamNew_ok {src : List Char} {t : Token} {rem : Option SpannedStr}
    {ts : List Token} (h : lexToken src = .ok (t, rem)) (hrun : TokRun rem ts)
    (hlen : ts.length ≤ src.length) :
    tokenStreamNew src = .ok (t :: ts) := by
  rw [tokenStreamNew]
  simp only [h]
  rw [tsLoop_of_tokRun hrun src.length [t] hlen]
  simp

theorem tokenStreamNew_err {src : List Char} {e : LexError}
    (h : lexToken src = .error e) : tokenStreamNew src = .error e := by
  rw [tokenStreamNew, h]

/-! ## Boundary facts for the span invariant -/

theorem isBoundary_iff (cs : List Char) (b : Nat) :
    isBoundary cs b = true ↔ ∃ pre suf, cs = pre ++ suf ∧ utf8Len pre = b := by
  induction cs generalizing b with
  | nil =>
    cases b with
    | zero => exact ⟨fun _ => ⟨[], [], rfl, rfl⟩, fun _ => rfl⟩
    | succ b =>
      constructor
      · intro h; cases h
      · rintro ⟨pre, suf, h1, h2⟩
        have : pre = [] := by
          cases pre with
          | nil => rfl
          | cons p ps => simp at h1
        subst this
        simp [utf8Len] at h2
  | cons c rest ih =>
    cases b with
    | zero => exact ⟨fun _ => ⟨[], c :: rest, rfl, rfl⟩, fun _ => rfl⟩
    | succ b =>
      by_cases hsz : c.utf8Size ≤ b + 1
      · rw [show isBoundary (c :: rest) (b + 1) = isBoundary rest (b + 1 - c.utf8Size) from by
          rw [isBoundary, if_pos hsz]]
        rw [ih]
        constructor
        · rintro ⟨pre, suf, h1, h2⟩
          exact ⟨c :: pre, suf, by simp [h1], by simp [utf8Len, h2]; omega⟩
        · rintro ⟨pre, suf, h1, h2⟩
          cases pre with
          | nil => simp [utf8Len] at h2
          | cons p ps =>
            simp only [List.cons_append, List.cons.injEq] at h1
            obtain ⟨rfl, h1⟩ := h1
            refine ⟨ps, suf, h1, ?_⟩
            simp [utf8Len] at h2
            omega
      · rw [show isBoundary (c :: rest) (b + 1) = false from by rw [isBoundary, if_neg hsz]]
        constructor
        · intro h; cases h
        · rintro ⟨pre, suf, h1, h2⟩
          cases pre with
          | nil => simp [utf8Len] at h2
          | cons p ps =>
            simp only [List.cons_append, List.cons.injEq] at h1
            obtain ⟨rfl, h1⟩ := h1
            have := c.utf8Size_pos
            simp [utf8Len] at h2
            omega

theorem isBoundary_zero (cs : List Char) : isBoundary cs 0 = true := by
  cases cs <;> rfl

theorem isBoundary_len (cs : List Char) : isBoundary cs (utf8Len cs) = true :=
  (isBoundary_iff cs (utf8Len cs)).mpr ⟨cs, [], by simp, rfl⟩

theorem utf8Len_take_le (cs : List Char) (n : Nat) :
    utf8Len (cs.take n) ≤ utf8Len cs := by
  conv_rhs => rw [← List.take_append_drop n cs]
  rw [utf8Len_append]
  omega

/-- Every valid span decomposes the buffer as `pre ++ mid ++ suf`, its
substring being the middle part. -/
theorem validSpan_decomp (s : SpannedStr) (hs : ValidSpan s) :
    ∃ pre mid suf, s.src = pre ++ mid ++ suf ∧ utf8Len pre = s.span.start_byte ∧
      utf8Len pre + utf8Len mid = s.span.end_byte ∧ s.substring = mid := by
  obtain ⟨src, sb, eb⟩ := s
  obtain ⟨h1, h2, h3, h4⟩ := hs
  simp only at h1 h2 h3 h4 ⊢
  obtain ⟨p1, s1, hd1, hl1⟩ := (isBoundary_iff _ _).mp h3
  obtain ⟨p2, s2, hd2, hl2⟩ := (isBoundary_iff _ _).mp h4
  subst hl1 hl2 hd1
  rcases List.append_eq_append_iff.mp hd2 with ⟨a, hp2, hs1⟩ | ⟨a, hp1, hs2⟩
  · subst hp2 hs1
    refine ⟨p1, a, s2, by rw [List.append_assoc], rfl, (utf8Len_append p1 a).symm, ?_⟩
    have hrw : (SpannedStr.mk (p1 ++ (a ++ s2)) ⟨utf8Len p1, utf8Len (p1 ++ a)⟩)
        = SpannedStr.mk (p1 ++ a ++ s2) ⟨utf8Len p1, utf8Len p1 + utf8Len a⟩ := by
      rw [List.append_assoc, utf8Len_append]
    rw [hrw]
    exact substring_decomp p1 a s2
  · have hLp1 : utf8Len p1 = utf8Len p2 + utf8Len a := by rw [hp1, utf8Len_append]
    have ha : a = [] := by
      have : utf8Len a = 0 := by omega
      exact utf8Len_eq_zero.mp this
    subst ha
    have hp : p1 = p2 := by simpa using hp1
    subst hp
    refine ⟨p1, [], s1, by simp, rfl, by simp [utf8Len], ?_⟩
    rw [SpannedStr.substring]
    simp only
    rw [if_pos (by omega)]

theorem dropWhile_head_false (m : Char → Bool) (l : List Char) :
    ∀ y, (l.dropWhile m).head? = some y → m y = false := by
  induction l with
  | nil => intro y hy; cases hy
  | cons x xs ih =>
    intro y hy
    rw [List.dropWhile_cons] at hy
    by_cases hx : m x
    · rw [if_pos hx] at hy
      exact ih y hy
    · rw [if_neg hx] at hy
      have hxy : x = y := by simpa using hy
      subst hxy
      simpa using hx

theorem lexEnd_take (cs : List Char) (m : Char → Nat → Bool) (pos idx : Nat) :
    ∃ k, lexEnd cs m pos idx = pos + utf8Len (cs.take k) := by
  induction cs generalizing pos idx with
  | nil => exact ⟨0, by simp [lexEnd, utf8Len]⟩
  | cons c rest ih =>
    by_cases hc : m c idx
    · obtain ⟨k, hk⟩ := ih (pos + c.utf8Size) (idx + 1)
      refine ⟨k + 1, ?_⟩
      rw [show lexEnd (c :: rest) m pos idx = lexEnd rest m (pos + c.utf8Size) (idx + 1) from
        by rw [lexEnd, if_pos hc]]
      rw [hk]
      simp [List.take_succ_cons, utf8Len]
      omega
    · exact ⟨0, by rw [lexEnd, if_neg hc]; simp [utf8Len]⟩

/-- Inversion: every `Ident` token the lexer produces is a nonempty run of
alphanumeric-or-underscore characters starting with an alphabetic character
or `_`. -/
theorem lexToken_ident_inv {cs p : List Char} {rem : Option SpannedStr}
    (h : lexToken cs = .ok (.Ident p, rem)) : IdentShape p := by
  have hws : ∀ x ∈ cs.takeWhile isRustWhitespace, isRustWhitespace x = true := by
    intro x hx
    have h' := List.mem_takeWhile_imp hx
    exact h'
  have hsplit : cs = cs.takeWhile isRustWhitespace ++ cs.dropWhile isRustWhitespace :=
    (List.takeWhile_append_dropWhile _ cs).symm
  cases hdw : cs.dropWhile isRustWhitespace with
  | nil =>
    have hcsws : ∀ x ∈ cs, isRustWhitespace x = true := by
      intro x hx
      rw [hsplit, hdw] at hx
      simp at hx
      exact hws x hx
    rw [lexToken_all_ws cs hcsws] at h
    cases h
  | cons d dtl =>
    have hr : cs = cs.takeWhile isRustWhitespace ++ d :: dtl := by
      rw [← hdw]
      exact hsplit
    have hd : isRustWhitespace d = false :=
      dropWhile_head_false _ cs d (by rw [hdw]; rfl)
    by_cases hg : isRustAlphabetic d = true ∨ d = '_'
    · have hid := lexToken_ident (cs.takeWhile isRustWhitespace) d
        (dtl.takeWhile (fun x => isRustAlphanumeric x || x == '_'))
        (dtl.dropWhile (fun x => isRustAlphanumeric x || x == '_')) hws hg
        (by
          intro x hx
          rcases List.mem_cons.mp hx with rfl | hx
          · exact alpha_identChar hg
          · have h'' := List.mem_takeWhile_imp hx
            exact h'')
        (dropWhile_head_false _ dtl)
      rw [List.takeWhile_append_dropWhile] at hid
      rw [hr, hid] at h
      injection h with h1
      have h2 : Token.Ident (d :: dtl.takeWhile (fun x => isRustAlphanumeric x || x == '_')) =
          Token.Ident p := congrArg Prod.fst h1
      injection h2 with h3
      refine ⟨d, dtl.takeWhile (fun x => isRustAlphanumeric x || x == '_'), h3.symm, hg, ?_⟩
      rw [← h3]
      intro x hx
      rcases List.mem_cons.mp hx with rfl | hx
      · exact alpha_identChar hg
      · have h'' := List.mem_takeWhile_imp hx
        exact h''
    · exfalso
      rw [hr, lexToken_eq_core _ (d :: dtl) hws
        (by intro y hy; simp at hy; subst hy; exact hd) (by simp)] at h
      rw [lexTokenCore, first_char_suffixView] at h
      simp only [List.head?_cons] at h
      rw [if_neg hg] at h
      repeat' (split at h)
      all_goals simp at h

/-- Every `Ident` token in a successful tokenizer run has the `IdentShape`. -/
theorem tsLoop_ident_inv (fuel : Nat) :
    ∀ (acc : List Token) (rem : Option SpannedStr) (toks : List Token),
      tsLoop fuel acc rem = .ok toks → (∀ q, Token.Ident q ∈ acc → IdentShape q) →
      ∀ p, Token.Ident p ∈ toks → IdentShape p := by
  induction fuel with
  | zero =>
    intro acc rem toks h hacc p hp
    cases rem with
    | none =>
      simp only [tsLoop, Except.ok.injEq] at h
      subst h
      exact hacc p hp
    | some sp =>
      simp only [tsLoop, Except.ok.injEq] at h
      subst h
      exact hacc p hp
  | succ f ih =>
    intro acc rem toks h hacc p hp
    cases rem with
    | none =>
      simp only [tsLoop, Except.ok.injEq] at h
      subst h
      exact hacc p hp
    | some sp =>
      cases hlt : lexToken sp.substring with
      | error e =>
        cases e with
        | EndOfInput =>
          simp only [tsLoop, hlt, Except.ok.injEq] at h
          subst h
          exact hacc p hp
        | InvalidChar c => simp [tsLoop, hlt] at h
        | NonterminatedString => simp [tsLoop, hlt] at h
      | ok pr =>
        obtain ⟨t, rem'⟩ := pr
        simp only [tsLoop, hlt] at h
        refine ih (acc ++ [t]) rem' toks h ?_ p hp
        intro q hq
        rcases List.mem_append.mp hq with hq | hq
        · exact hacc q hq
        · have hqt : Token.Ident q = t := List.mem_singleton.mp hq
          rw [← hqt] at hlt
          exact lexToken_ident_inv hlt

/-! ## Tokenizing a full record input -/

/-- Tokenization of a complete record text, written in cons-normal form:
`#g0(f1: "s1", f2: "s2", f3: "s3"` followed by an arbitrary nonempty tail
`R` whose run is described by `hcont`. -/
theorem tokenStreamNew_recordNF (c0 : Char) (cs0 : List Char) (c1 : Char) (cs1 : List Char)
    (c2 : Char) (cs2 : List Char) (c3 : Char) (cs3 : List Char)
    (s1 s2 s3 R : List Char) (ts : List Token)
    (h0 : isRustAlphabetic c0 = true ∨ c0 = '_')
    (a0 : ∀ x ∈ c0 :: cs0, (isRustAlphanumeric x || x == '_') = true)
    (h1 : isRustAlphabetic c1 = true ∨ c1 = '_')
    (a1 : ∀ x ∈ c1 :: cs1, (isRustAlphanumeric x || x == '_') = true)
    (h2 : isRustAlphabetic c2 = true ∨ c2 = '_')
    (a2 : ∀ x ∈ c2 :: cs2, (isRustAlphanumeric x || x == '_') = true)
    (h3 : isRustAlphabetic c3 = true ∨ c3 = '_')
    (a3 : ∀ x ∈ c3 :: cs3, (isRustAlphanumeric x || x == '_') = true)
    (hs1 : ∀ x ∈ s1, x ≠ '"' ∧ x ≠ '\n') (hs2 : ∀ x ∈ s2, x ≠ '"' ∧ x ≠ '\n')
    (hs3 : ∀ x ∈ s3, x ≠ '"' ∧ x ≠ '\n')
    (hRne : R ≠ []) (hts : ts.length ≤ 2)
    (hcont : TokRun (some (suffixView (s3 ++ ['"']) R)) ts) :
    tokenStreamNew ('#' :: c0 :: (cs0 ++ '(' :: c1 :: (cs1 ++ ':' :: ' ' :: '"' ::
        (s1 ++ '"' :: ',' :: ' ' :: c2 :: (cs2 ++ ':' :: ' ' :: '"' ::
        (s2 ++ '"' :: ',' :: ' ' :: c3 :: (cs3 ++ ':' :: ' ' :: '"' ::
        (s3 ++ '"' :: R)))))))) =
      .ok (Token.Hash :: .Ident (c0 :: cs0) :: .LeftParen ::
        .Ident (c1 :: cs1) :: .Colon :: .String s1 :: .Comma ::
        .Ident (c2 :: cs2) :: .Colon :: .String s2 :: .Comma ::
        .Ident (c3 :: cs3) :: .Colon :: .String s3 :: ts) := by
  have e13 : lexToken (' ' :: '"' :: (s3 ++ '"' :: R)) =
      .ok (.String s3, some (suffixView (s3 ++ ['"']) R)) := by
    have base := lexToken_string_ok [' '] s3 R (by decide) hs3
    rw [if_neg (by simpa [List.isEmpty_iff] using hRne)] at base
    simpa using base
  have e12 : lexToken (':' :: ' ' :: '"' :: (s3 ++ '"' :: R)) =
      .ok (.Colon, some (suffixView [':'] (' ' :: '"' :: (s3 ++ '"' :: R)))) := by
    simpa using lexToken_punct [] ':' (' ' :: '"' :: (s3 ++ '"' :: R)) Token.Colon
      (by simp) (by simp)
  have e11 : lexToken (' ' :: c3 :: (cs3 ++ ':' :: ' ' :: '"' :: (s3 ++ '"' :: R))) =
      .ok (.Ident (c3 :: cs3),
        some (suffixView (c3 :: cs3) (':' :: ' ' :: '"' :: (s3 ++ '"' :: R)))) := by
    simpa using lexToken_ident [' '] c3 cs3 (':' :: ' ' :: '"' :: (s3 ++ '"' :: R))
      (by decide) h3 a3 (by intro y hy; simp at hy; subst hy; decide)
  have e10 : lexToken (',' :: ' ' :: c3 :: (cs3 ++ ':' :: ' ' :: '"' :: (s3 ++ '"' :: R))) =
      .ok (.Comma, some (suffixView [',']
        (' ' :: c3 :: (cs3 ++ ':' :: ' ' :: '"' :: (s3 ++ '"' :: R))))) := by
    simpa using lexToken_punct []
      ',' (' ' :: c3 :: (cs3 ++ ':' :: ' ' :: '"' :: (s3 ++ '"' :: R))) Token.Comma
      (by simp) (by simp)
  have e9 : lexToken (' ' :: '"' :: (s2 ++ '"' :: ',' :: ' ' :: c3 ::
        (cs3 ++ ':' :: ' ' :: '"' :: (s3 ++ '"' :: R)))) =
      .ok (.String s2, some (suffixView (s2 ++ ['"'])
        (',' :: ' ' :: c3 :: (cs3 ++ ':' :: ' ' :: '"' :: (s3 ++ '"' :: R))))) := by
    simpa using lexToken_string_ok [' '] s2
      (',' :: ' ' :: c3 :: (cs3 ++ ':' :: ' ' :: '"' :: (s3 ++ '"' :: R))) (by decide) hs2
  have e8 : lexToken (':' :: ' ' :: '"' :: (s2 ++ '"' :: ',' :: ' ' :: c3 ::
        (cs3 ++ ':' :: ' ' :: '"' :: (s3 ++ '"' :: R)))) =
      .ok (.Colon, some (suffixView [':'] (' ' :: '"' :: (s2 ++ '"' :: ',' :: ' ' :: c3 ::
        (cs3 ++ ':' :: ' ' :: '"' :: (s3 ++ '"' :: R)))))) := by
    simpa using lexToken_punct [] ':' (' ' :: '"' :: (s2 ++ '"' :: ',' :: ' ' :: c3 ::
      (cs3 ++ ':' :: ' ' :: '"' :: (s3 ++ '"' :: R)))) Token.Colon (by simp) (by simp)
  have e7 : lexToken (' ' :: c2 :: (cs2 ++ ':' :: ' ' :: '"' :: (s2 ++ '"' :: ',' :: ' ' :: c3 ::
        (cs3 ++ ':' :: ' ' :: '"' :: (s3 ++ '"' :: R))))) =
      .ok (.Ident (c2 :: cs2), some (suffixView (c2 :: cs2)
        (':' :: ' ' :: '"' :: (s2 ++ '"' :: ',' :: ' ' :: c3 ::
          (cs3 ++ ':' :: ' ' :: '"' :: (s3 ++ '"' :: R)))))) := by
    simpa using lexToken_ident [' '] c2 cs2 (':' :: ' ' :: '"' ::
      (s2 ++ '"' :: ',' :: ' ' :: c3 :: (cs3 ++ ':' :: ' ' :: '"' :: (s3 ++ '"' :: R))))
      (by decide) h2 a2 (by intro y hy; simp at hy; subst hy; decide)
  have e6 : lexToken (',' :: ' ' :: c2 :: (cs2 ++ ':' :: ' ' :: '"' ::
        (s2 ++ '"' :: ',' :: ' ' :: c3 :: (cs3 ++ ':' :: ' ' :: '"' :: (s3 ++ '"' :: R))))) =
      .ok (.Comma, some (suffixView [','] (' ' :: c2 :: (cs2 ++ ':' :: ' ' :: '"' ::
        (s2 ++ '"' :: ',' :: ' ' :: c3 ::
          (cs3 ++ ':' :: ' ' :: '"' :: (s3 ++ '"' :: R))))))) := by
    simpa using lexToken_punct [] ',' (' ' :: c2 :: (cs2 ++ ':' :: ' ' :: '"' ::
      (s2 ++ '"' :: ',' :: ' ' :: c3 :: (cs3 ++ ':' :: ' ' :: '"' :: (s3 ++ '"' :: R)))))
      Token.Comma (by simp) (by simp)
  have e5 : lexToken (' ' :: '"' :: (s1 ++ '"' :: ',' :: ' ' :: c2 :: (cs2 ++ ':' :: ' ' :: '"' ::
        (s2 ++ '"' :: ',' :: ' ' :: c3 :: (cs3 ++ ':' :: ' ' :: '"' :: (s3 ++ '"' :: R)))))) =
      .ok (.String s1, some (suffixView (s1 ++ ['"'])
        (',' :: ' ' :: c2 :: (cs2 ++ ':' :: ' ' :: '"' ::
          (s2 ++ '"' :: ',' :: ' ' :: c3 ::
            (cs3 ++ ':' :: ' ' :: '"' :: (s3 ++ '"' :: R))))))) := by
    simpa using lexToken_string_ok [' '] s1
      (',' :: ' ' :: c2 :: (cs2 ++ ':' :: ' ' :: '"' ::
        (s2 ++ '"' :: ',' :: ' ' :: c3 :: (cs3 ++ ':' :: ' ' :: '"' :: (s3 ++ '"' :: R)))))
      (by decide) hs1
  have e4 : lexToken (':' :: ' ' :: '"' :: (s1 ++ '"' :: ',' :: ' ' :: c2 ::
        (cs2 ++ ':' :: ' ' :: '"' :: (s2 ++ '"' :: ',' :: ' ' :: c3 ::
          (cs3 ++ ':' :: ' ' :: '"' :: (s3 ++ '"' :: R)))))) =
      .ok (.Colon, some (suffixView [':'] (' ' :: '"' :: (s1 ++ '"' :: ',' :: ' ' :: c2 ::
        (cs2 ++ ':' :: ' ' :: '"' :: (s2 ++ '"' :: ',' :: ' ' :: c3 ::
          (cs3 ++ ':' :: ' ' :: '"' :: (s3 ++ '"' :: R)))))))) := by
    simpa using lexToken_punct [] ':' (' ' :: '"' :: (s1 ++ '"' :: ',' :: ' ' :: c2 ::
      (cs2 ++ ':' :: ' ' :: '"' :: (s2 ++ '"' :: ',' :: ' ' :: c3 ::
        (cs3 ++ ':' :: ' ' :: '"' :: (s3 ++ '"' :: R)))))) Token.Colon (by simp) (by simp)
  have e3 : lexToken (c1 :: (cs1 ++ ':' :: ' ' :: '"' :: (s1 ++ '"' :: ',' :: ' ' :: c2 ::
        (cs2 ++ ':' :: ' ' :: '"' :: (s2 ++ '"' :: ',' :: ' ' :: c3 ::
          (cs3 ++ ':' :: ' ' :: '"' :: (s3 ++ '"' :: R))))))) =
      .ok (.Ident (c1 :: cs1), some (suffixView (c1 :: cs1)
        (':' :: ' ' :: '"' :: (s1 ++ '"' :: ',' :: ' ' :: c2 ::
          (cs2 ++ ':' :: ' ' :: '"' :: (s2 ++ '"' :: ',' :: ' ' :: c3 ::
            (cs3 ++ ':' :: ' ' :: '"' :: (s3 ++ '"' :: R)))))))) := by
    simpa using lexToken_ident [] c1 cs1 (':' :: ' ' :: '"' ::
      (s1 ++ '"' :: ',' :: ' ' :: c2 :: (cs2 ++ ':' :: ' ' :: '"' ::
        (s2 ++ '"' :: ',' :: ' ' :: c3 :: (cs3 ++ ':' :: ' ' :: '"' :: (s3 ++ '"' :: R))))))
      (by simp) h1 a1 (by intro y hy; simp at hy; subst hy; decide)
  have e2 : lexToken ('(' :: c1 :: (cs1 ++ ':' :: ' ' :: '"' :: (s1 ++ '"' :: ',' :: ' ' :: c2 ::
        (cs2 ++ ':' :: ' ' :: '"' :: (s2 ++ '"' :: ',' :: ' ' :: c3 ::
          (cs3 ++ ':' :: ' ' :: '"' :: (s3 ++ '"' :: R))))))) =
      .ok (.LeftParen, some (suffixView ['(']
        (c1 :: (cs1 ++ ':' :: ' ' :: '"' :: (s1 ++ '"' :: ',' :: ' ' :: c2 ::
          (cs2 ++ ':' :: ' ' :: '"' :: (s2 ++ '"' :: ',' :: ' ' :: c3 ::
            (cs3 ++ ':' :: ' ' :: '"' :: (s3 ++ '"' :: R)))))))))  := by
    simpa using lexToken_punct [] '('
      (c1 :: (cs1 ++ ':' :: ' ' :: '"' :: (s1 ++ '"' :: ',' :: ' ' :: c2 ::
        (cs2 ++ ':' :: ' ' :: '"' :: (s2 ++ '"' :: ',' :: ' ' :: c3 ::
          (cs3 ++ ':' :: ' ' :: '"' :: (s3 ++ '"' :: R)))))))
      Token.LeftParen (by simp) (by simp)
  have e1 : lexToken (c0 :: (cs0 ++ '(' :: c1 :: (cs1 ++ ':' :: ' ' :: '"' ::
        (s1 ++ '"' :: ',' :: ' ' :: c2 :: (cs2 ++ ':' :: ' ' :: '"' ::
          (s2 ++ '"' :: ',' :: ' ' :: c3 ::
            (cs3 ++ ':' :: ' ' :: '"' :: (s3 ++ '"' :: R)))))))) =
      .ok (.Ident (c0 :: cs0), some (suffixView (c0 :: cs0)
        ('(' :: c1 :: (cs1 ++ ':' :: ' ' :: '"' :: (s1 ++ '"' :: ',' :: ' ' :: c2 ::
          (cs2 ++ ':' :: ' ' :: '"' :: (s2 ++ '"' :: ',' :: ' ' :: c3 ::
            (cs3 ++ ':' :: ' ' :: '"' :: (s3 ++ '"' :: R))))))))) := by
    simpa using lexToken_ident [] c0 cs0 ('(' :: c1 :: (cs1 ++ ':' :: ' ' :: '"' ::
      (s1 ++ '"' :: ',' :: ' ' :: c2 :: (cs2 ++ ':' :: ' ' :: '"' ::
        (s2 ++ '"' :: ',' :: ' ' :: c3 :: (cs3 ++ ':' :: ' ' :: '"' :: (s3 ++ '"' :: R)))))))
      (by simp) h0 a0 (by intro y hy; simp at hy; subst hy; decide)
  have e0 : lexToken ('#' :: c0 :: (cs0 ++ '(' :: c1 :: (cs1 ++ ':' :: ' ' :: '"' ::
        (s1 ++ '"' :: ',' :: ' ' :: c2 :: (cs2 ++ ':' :: ' ' :: '"' ::
          (s2 ++ '"' :: ',' :: ' ' :: c3 ::
            (cs3 ++ ':' :: ' ' :: '"' :: (s3 ++ '"' :: R)))))))) =
      .ok (.Hash, some (suffixView ['#'] (c0 :: (cs0 ++ '(' :: c1 :: (cs1 ++ ':' :: ' ' :: '"' ::
        (s1 ++ '"' :: ',' :: ' ' :: c2 :: (cs2 ++ ':' :: ' ' :: '"' ::
          (s2 ++ '"' :: ',' :: ' ' :: c3 ::
            (cs3 ++ ':' :: ' ' :: '"' :: (s3 ++ '"' :: R)))))))))) := by
    simpa using lexToken_punct [] '#' (c0 :: (cs0 ++ '(' :: c1 :: (cs1 ++ ':' :: ' ' :: '"' ::
      (s1 ++ '"' :: ',' :: ' ' :: c2 :: (cs2 ++ ':' :: ' ' :: '"' ::
        (s2 ++ '"' :: ',' :: ' ' :: c3 :: (cs3 ++ ':' :: ' ' :: '"' :: (s3 ++ '"' :: R))))))))
      Token.Hash (by simp) (by simp)
  have run : TokRun (some (suffixView ['#'] (c0 :: (cs0 ++ '(' :: c1 :: (cs1 ++ ':' :: ' ' :: '"' ::
        (s1 ++ '"' :: ',' :: ' ' :: c2 :: (cs2 ++ ':' :: ' ' :: '"' ::
          (s2 ++ '"' :: ',' :: ' ' :: c3 ::
            (cs3 ++ ':' :: ' ' :: '"' :: (s3 ++ '"' :: R))))))))))
      (.Ident (c0 :: cs0) :: .LeftParen :: .Ident (c1 :: cs1) :: .Colon :: .String s1 ::
        .Comma :: .Ident (c2 :: cs2) :: .Colon :: .String s2 :: .Comma ::
        .Ident (c3 :: cs3) :: .Colon :: .String s3 :: ts) :=
    TokRun.step _ _ _ _ (by rw [substring_suffixView]; exact e1)
      (TokRun.step _ _ _ _ (by rw [substring_suffixView]; exact e2)
        (TokRun.step _ _ _ _ (by rw [substring_suffixView]; exact e3)
          (TokRun.step _ _ _ _ (by rw [substring_suffixView]; exact e4)
            (TokRun.step _ _ _ _ (by rw [substring_suffixView]; exact e5)
              (TokRun.step _ _ _ _ (by rw [substring_suffixView]; exact e6)
                (TokRun.step _ _ _ _ (by rw [substring_suffixView]; exact e7)
                  (TokRun.step _ _ _ _ (by rw [substring_suffixView]; exact e8)
                    (TokRun.step _ _ _ _ (by rw [substring_suffixView]; exact e9)
                      (TokRun.step _ _ _ _ (by rw [substring_suffixView]; exact e10)
                        (TokRun.step _ _ _ _ (by rw [substring_suffixView]; exact e11)
                          (TokRun.step _ _ _ _ (by rw [substring_suffixView]; exact e12)
                            (TokRun.step _ _ _ _ (by rw [substring_suffixView]; exact e13)
                              hcont))))))))))))
  refine tokenStreamNew_ok e0 run ?_
  have hRlen : 0 < R.length := List.length_pos.mpr hRne
  simp [List.length_append, List.length_cons]
  omega

/-- Tokenization of `buildInput`: the exact token sequence of a
three-field record text, for identifier-shaped field names, clean string
contents, either field separator style. -/
theorem tokenStreamNew_buildInput (f1 s1 f2 s2 f3 s3 : List Char) (tr : Bool)
    (hf1 : IdentShape f1) (hf2 : IdentShape f2) (hf3 : IdentShape f3)
    (hs1 : ∀ x ∈ s1, x ≠ '"' ∧ x ≠ '\n') (hs2 : ∀ x ∈ s2, x ≠ '"' ∧ x ≠ '\n')
    (hs3 : ∀ x ∈ s3, x ≠ '"' ∧ x ≠ '\n') :
    tokenStreamNew (buildInput f1 s1 f2 s2 f3 s3 tr) =
      .ok (Token.Hash :: .Ident ("render_pipeline".toList) :: .LeftParen ::
        .Ident f1 :: .Colon :: .String s1 :: .Comma ::
        .Ident f2 :: .Colon :: .String s2 :: .Comma ::
        .Ident f3 :: .Colon :: .String s3 ::
        ((if tr then [Token.Comma] else []) ++ [Token.RightParen])) := by
  obtain ⟨c1, cs1, rfl, hc1, ha1⟩ := hf1
  obtain ⟨c2, cs2, rfl, hc2, ha2⟩ := hf2
  obtain ⟨c3, cs3, rfl, hc3, ha3⟩ := hf3
  cases tr with
  | true =>
    have hcont : TokRun (some (suffixView (s3 ++ ['"']) [',', ')']))
        [Token.Comma, Token.RightParen] := by
      have hstep1 : lexToken ((suffixView (s3 ++ ['"']) [',', ')']).substring) =
          .ok (Token.Comma, some (suffixView [','] [')'])) := by
        rw [substring_suffixView]
        simpa using lexToken_punct [] ',' [')'] Token.Comma (by simp) (by simp)
      have hstep2 : lexToken ((suffixView [','] [')']).substring) =
          .ok (Token.RightParen, none) := by
        rw [substring_suffixView]
        simpa using lexToken_punct [] ')' [] Token.RightParen (by simp) (by simp)
      exact TokRun.step _ _ _ _ hstep1 (TokRun.step _ _ _ _ hstep2 TokRun.stop)
    have hmain := tokenStreamNew_recordNF 'r' ("ender_pipeline".toList) c1 cs1 c2 cs2 c3 cs3
      s1 s2 s3 [',', ')'] [Token.Comma, Token.RightParen] (by decide) (by decide)
      hc1 ha1 hc2 ha2 hc3 ha3 hs1 hs2 hs3 (by simp) (by simp) hcont
    simp only [buildInput, buildField, List.cons_append, List.append_assoc,
      List.singleton_append, List.nil_append]
    exact hmain
  | false =>
    have hcont : TokRun (some (suffixView (s3 ++ ['"']) [')'])) [Token.RightParen] := by
      have hstep : lexToken ((suffixView (s3 ++ ['"']) [')']).substring) =
          .ok (Token.RightParen, none) := by
        rw [substring_suffixView]
        simpa using lexToken_punct [] ')' [] Token.RightParen (by simp) (by simp)
      exact TokRun.step _ _ _ _ hstep TokRun.stop
    have hmain := tokenStreamNew_recordNF 'r' ("ender_pipeline".toList) c1 cs1 c2 cs2 c3 cs3
      s1 s2 s3 [')'] [Token.RightParen] (by decide) (by decide)
      hc1 ha1 hc2 ha2 hc3 ha3 hs1 hs2 hs3 (by simp) (by simp) hcont
    simp only [buildInput, buildField, List.cons_append, List.append_assoc,
      List.singleton_append, List.nil_append]
    exact hmain

theorem perm2 {α : Type} {y z u v : α} (h : ([y, z] : List α).Perm [u, v]) :
    (y = u ∧ z = v) ∨ (y = v ∧ z = u) := by
  have hy : y ∈ [u, v] := h.mem_iff.mp (by simp)
  simp only [List.mem_cons, List.not_mem_nil, or_false] at hy
  rcases hy with rfl | rfl
  · left
    refine ⟨rfl, ?_⟩
    have hz : z ∈ [v] := h.cons_inv.mem_iff.mp (by simp)
    simpa using hz
  · right
    refine ⟨rfl, ?_⟩
    have hsw : ([u, y] : List α).Perm [y, u] := List.Perm.swap y u []
    have hz : z ∈ [u] := (h.trans hsw).cons_inv.mem_iff.mp (by simp)
    simpa using hz

theorem perm3 {α : Type} {x y z a b c : α} (h : ([x, y, z] : List α).Perm [a, b, c]) :
    (x = a ∧ y = b ∧ z = c) ∨ (x = a ∧ y = c ∧ z = b) ∨ (x = b ∧ y = a ∧ z = c) ∨
    (x = b ∧ y = c ∧ z = a) ∨ (x = c ∧ y = a ∧ z = b) ∨ (x = c ∧ y = b ∧ z = a) := by
  have hx : x ∈ [a, b, c] := h.mem_iff.mp (by simp)
  simp only [List.mem_cons, List.not_mem_nil, or_false] at hx
  rcases hx with rfl | rfl | rfl
  · rcases perm2 h.cons_inv with ⟨rfl, rfl⟩ | ⟨rfl, rfl⟩
    · exact Or.inl ⟨rfl, rfl, rfl⟩
    · exact Or.inr (Or.inl ⟨rfl, rfl, rfl⟩)
  · have hsw : ([a, x, c] : List α).Perm [x, a, c] := List.Perm.swap x a [c]
    rcases perm2 (h.trans hsw).cons_inv with ⟨rfl, rfl⟩ | ⟨rfl, rfl⟩
    · exact Or.inr (Or.inr (Or.inl ⟨rfl, rfl, rfl⟩))
    · exact Or.inr (Or.inr (Or.inr (Or.inl ⟨rfl, rfl, rfl⟩)))
  · have p1 : ([a, b, x] : List α).Perm [a, x, b] := List.Perm.cons a (List.Perm.swap x b [])
    have p2 : ([a, x, b] : List α).Perm [x, a, b] := List.Perm.swap x a [b]
    rcases perm2 ((h.trans p1).trans p2).cons_inv with ⟨rfl, rfl⟩ | ⟨rfl, rfl⟩
    · exact Or.inr (Or.inr (Or.inr (Or.inr (Or.inl ⟨rfl, rfl, rfl⟩))))
    · exact Or.inr (Or.inr (Or.inr (Or.inr (Or.inr ⟨rfl, rfl, rfl⟩))))

/-! ## Claims -/

/-- C10: whenever `skip` returns `Some`, the returned view's span end is the
byte length of the whole underlying buffer; in particular, for a view whose
span end is strictly below the buffer length, the returned view's end
strictly exceeds the original end, so its substring extends past the end of
the original substring. -/
theorem c10_skip_extends_to_buffer_end (s : SpannedStr) (n : Nat) (w : SpannedStr)
    (hend : s.span.end_byte < utf8Len s.src) (hw : s.skip n = some w) :
    w.span.end_byte = utf8Len s.src ∧ s.span.end_byte < w.span.end_byte := by
  rw [skip_eq] at hw
  by_cases h : s.substring.length ≤ n
  · rw [if_pos h] at hw
    cases hw
  · rw [if_neg h] at hw
    injection hw with hw
    subst hw
    exact ⟨rfl, hend⟩

theorem c10_witness :
    (SpannedStr.mk ("ab".toList) ⟨0, 2⟩).span.end_byte =
      utf8Len (SpannedStr.mk ("ab".toList) ⟨0, 1⟩).src ∧
    (SpannedStr.mk ("ab".toList) ⟨0, 1⟩).span.end_byte <
      (SpannedStr.mk ("ab".toList) ⟨0, 2⟩).span.end_byte :=
  c10_skip_extends_to_buffer_end (SpannedStr.mk ("ab".toList) ⟨0, 1⟩) 0
    (SpannedStr.mk ("ab".toList) ⟨0, 2⟩) (by decide) (by decide)

/-- C2 counterexample: on the view over `"ab"` spanning only the first byte
(`substring = "a"`, one code point), `skip 0` returns `Some`, but the
returned view's substring is the whole buffer `"ab"`, not the original
substring with its first 0 code points removed. -/
theorem c2_counterexample :
    (SpannedStr.mk ("ab".toList) ⟨0, 1⟩).skip 0 = some (SpannedStr.mk ("ab".toList) ⟨0, 2⟩) ∧
    (SpannedStr.mk ("ab".toList) ⟨0, 2⟩).substring ≠
      ((SpannedStr.mk ("ab".toList) ⟨0, 1⟩).substring).drop 0 := by
  decide

/-- C2 (amended): for a view whose span end equals the buffer's byte length
(the shape of every view the lexer feeds to `skip`), `skip n` returns `Some`
exactly when `n < k` where `k` is the number of code points of the view's
substring, and the returned view's substring is the original substring with
its first `n` code points removed.  For a view whose span end is below the
buffer length, the returned view instead extends to the buffer's end (C10). -/
theorem c2_skip_code_points (pre suf : List Char) (n : Nat) :
    (n < suf.length ↔ ∃ w, (suffixView pre suf).skip n = some w) ∧
    (∀ w, (suffixView pre suf).skip n = some w →
      w.substring = ((suffixView pre suf).substring).drop n) := by
  rw [skip_suffixView]
  constructor
  · by_cases h : suf.length ≤ n
    · rw [if_pos h]
      constructor
      · intro h2; omega
      · rintro ⟨w, hw⟩; cases hw
    · rw [if_neg h]
      exact ⟨fun _ => ⟨_, rfl⟩, fun _ => by omega⟩
  · intro w hw
    by_cases h : suf.length ≤ n
    · rw [if_pos h] at hw
      cases hw
    · rw [if_neg h] at hw
      injection hw with hw
      subst hw
      rw [substring_suffixView, substring_suffixView]

theorem c2_witness :
    (1 < ("ab".toList).length ↔ ∃ w, (suffixView [] ("ab".toList)).skip 1 = some w) ∧
    (∀ w, (suffixView [] ("ab".toList)).skip 1 = some w →
      w.substring = ((suffixView [] ("ab".toList)).substring).drop 1) :=
  c2_skip_code_points [] ("ab".toList) 1

/-- C4: after optional leading whitespace, a `"` followed by a run of
characters free of `"` and newline and then a closing `"` lexes to a
`StringLiteral` whose payload is exactly that run (quotes excluded, empty
run allowed); if the input ends, or a newline appears, before a closing
quote, lexing fails with `NonterminatedString`. -/
theorem c4_string_literal (ws content rest : List Char)
    (hws : ∀ x ∈ ws, isRustWhitespace x = true)
    (hcontent : ∀ x ∈ content, x ≠ '"' ∧ x ≠ '\n') :
    (∃ rem, lexToken (ws ++ '"' :: (content ++ '"' :: rest)) = .ok (.String content, rem)) ∧
    lexToken (ws ++ '"' :: content) = .error .NonterminatedString ∧
    lexToken (ws ++ '"' :: (content ++ '\n' :: rest)) = .error .NonterminatedString :=
  ⟨⟨_, lexToken_string_ok ws content rest hws hcontent⟩,
    lexToken_string_eof ws content hws hcontent,
    lexToken_string_newline ws content rest hws hcontent⟩

theorem c4_witness :
    (∃ rem, lexToken ([' '] ++ '"' :: (('a' :: 'b' :: []) ++ '"' :: [' '])) =
      .ok (.String ('a' :: 'b' :: []), rem)) ∧
    lexToken ([' '] ++ '"' :: ('a' :: 'b' :: [])) = .error .NonterminatedString ∧
    lexToken ([' '] ++ '"' :: (('a' :: 'b' :: []) ++ '\n' :: [' '])) =
      .error .NonterminatedString :=
  c4_string_literal [' '] ('a' :: 'b' :: []) [' '] (by decide) (by decide)

/-- C8: re-assigning a known field overwrites the previous value without any
duplicate-field error, leaving the other two slots untouched (stated for
each of the three known fields over arbitrary incoming slot contents), and
on a full input that assigns `name` twice the parsed record holds the
second (last) value while the other fields are unaffected. -/
theorem c8_duplicate_field_last_wins (slots : Slots) (s : List Char) (rest : List Token) :
    parse_field slots (.Ident ("name".toList) :: .Colon :: .String s :: rest) =
      .ok ((some s, slots.2.1, slots.2.2), rest) ∧
    parse_field slots (.Ident ("vs_entry".toList) :: .Colon :: .String s :: rest) =
      .ok ((slots.1, some s, slots.2.2), rest) ∧
    parse_field slots (.Ident ("fs_entry".toList) :: .Colon :: .String s :: rest) =
      .ok ((slots.1, slots.2.1, some s), rest) ∧
    RenderPipelineConfig.parse
        ("#render_pipeline(name:\"A\",name:\"B\",vs_entry:\"C\",fs_entry:\"D\")".toList) =
      .ok ⟨"B".toList, "C".toList, "D".toList⟩ :=
  ⟨rfl, rfl, rfl, rfl⟩

/-- C9: a view satisfying the span invariant (`start_byte <= end_byte <=
len(buffer)`, both offsets on UTF-8 code-point boundaries) keeps producing
views satisfying it: through `remaining`, through `skip` (whenever it
returns `Some`), through the `From<&str>` conversion, and through the
maximal-run scanner `lex`. -/
theorem c9_span_invariant (s : SpannedStr) (cs : List Char) (m : Char → Nat → Bool) (n : Nat)
    (hs : ValidSpan s) :
    (∀ r, s.remaining = some r → ValidSpan r) ∧
    (∀ w, s.skip n = some w → ValidSpan w) ∧
    ValidSpan (SpannedStr.fromList cs) ∧ ValidSpan (lex cs m) := by
  obtain ⟨h1, h2, h3, h4⟩ := hs
  refine ⟨?_, ?_, ?_, ?_⟩
  · intro rv hrv
    rw [SpannedStr.remaining] at hrv
    by_cases h : s.span.end_byte < utf8Len s.src
    · rw [if_pos h] at hrv
      injection hrv with hrv
      subst hrv
      exact ⟨h.le, le_refl _, h4, isBoundary_len s.src⟩
    · rw [if_neg h] at hrv
      cases hrv
  · intro w hw
    rw [skip_eq] at hw
    by_cases h : s.substring.length ≤ n
    · rw [if_pos h] at hw
      cases hw
    · rw [if_neg h] at hw
      injection hw with hw
      subst hw
      obtain ⟨pre, mid, suf, hsrc, hpre, hmid, hsub⟩ := validSpan_decomp s ⟨h1, h2, h3, h4⟩
      have hassoc : (pre ++ mid.take n) ++ (mid.drop n ++ suf) = pre ++ mid ++ suf := by
        rw [List.append_assoc pre, ← List.append_assoc (mid.take n),
          List.take_append_drop, ← List.append_assoc]
      have htake := utf8Len_take_le mid n
      refine ⟨?_, le_refl _, ?_, isBoundary_len s.src⟩
      · show s.span.start_byte + utf8Len (s.substring.take n) ≤ utf8Len s.src
        rw [hsub]
        have : utf8Len s.src = utf8Len pre + utf8Len mid + utf8Len suf := by
          rw [hsrc, utf8Len_append, utf8Len_append]
        omega
      · show isBoundary s.src (s.span.start_byte + utf8Len (s.substring.take n)) = true
        rw [hsub]
        refine (isBoundary_iff _ _).mpr ⟨pre ++ mid.take n, mid.drop n ++ suf, ?_, ?_⟩
        · rw [hsrc, hassoc]
        · rw [utf8Len_append, hpre]
  · exact ⟨by simp [SpannedStr.fromList, SpannedStr.new],
      by simp [SpannedStr.fromList, SpannedStr.new],
      by simpa [SpannedStr.fromList, SpannedStr.new] using isBoundary_zero cs,
      by simpa [SpannedStr.fromList, SpannedStr.new] using isBoundary_len cs⟩
  · obtain ⟨k, hk⟩ := lexEnd_take cs m 0 0
    have hk' : lexEnd cs m 0 0 = utf8Len (cs.take k) := by simpa using hk
    refine ⟨?_, ?_, ?_, ?_⟩
    · show (0 : Nat) ≤ lexEnd cs m 0 0
      omega
    · show lexEnd cs m 0 0 ≤ utf8Len cs
      rw [hk']
      exact utf8Len_take_le cs k
    · exact isBoundary_zero cs
    · show isBoundary cs (lexEnd cs m 0 0) = true
      rw [hk']
      exact (isBoundary_iff _ _).mpr ⟨cs.take k, cs.drop k, (List.take_append_drop k cs).symm, rfl⟩

theorem c9_witness :
    (∀ r, (SpannedStr.mk ("ab".toList) ⟨0, 1⟩).remaining = some r → ValidSpan r) ∧
    (∀ w, (SpannedStr.mk ("ab".toList) ⟨0, 1⟩).skip 0 = some w → ValidSpan w) ∧
    ValidSpan (SpannedStr.fromList ("a".toList)) ∧
    ValidSpan (lex ("a".toList) (fun _ _ => true)) :=
  c9_span_invariant (SpannedStr.mk ("ab".toList) ⟨0, 1⟩) ("a".toList) (fun _ _ => true) 0
    (by decide)

/-- C6: tokenizing an empty or all-whitespace input fails with the
`EndOfInput` error (the very first `lex_token` call propagates it); whereas
once at least one token has been lexed, an `EndOfInput` from the next
`lex_token` call is a clean stop — the loop returns the tokens accumulated
so far, and the whole tokenization succeeds with them. -/
theorem c6_end_of_input (src : List Char) (acc : List Token) (sp : SpannedStr)
    (fuel : Nat) (t : Token) :
    ((∀ x ∈ src, isRustWhitespace x = true) → tokenStreamNew src = .error .EndOfInput) ∧
    (lexToken sp.substring = .error .EndOfInput → tsLoop fuel acc (some sp) = .ok acc) ∧
    (lexToken src = .ok (t, some sp) → lexToken sp.substring = .error .EndOfInput →
      tokenStreamNew src = .ok [t]) := by
  refine ⟨?_, ?_, ?_⟩
  · intro h
    exact tokenStreamNew_err (lexToken_all_ws src h)
  · intro h
    cases fuel with
    | zero => rfl
    | succ f => simp [tsLoop, h]
  · intro h1 h2
    exact tokenStreamNew_ok h1 (TokRun.eoi sp h2) (by simp)

theorem c6_witness :
    tokenStreamNew ("  ".toList) = .error .EndOfInput ∧
    tokenStreamNew ("# ".toList) = .ok [Token.Hash] := by
  constructor
  · exact (c6_end_of_input ("  ".toList) [] ⟨[], ⟨0, 0⟩⟩ 0 Token.Hash).1 (by decide)
  · exact (c6_end_of_input ("# ".toList) [] ⟨"# ".toList, ⟨1, 2⟩⟩ 0 Token.Hash).2.2
      (by rfl) (by rfl)

/-- C5 counterexample: the claim puts ASCII digits inside the accepted
alphanumeric set, but on input `"5"` the classifier reaches its fall-through
arm and fails with `InvalidChar('5')` — only alphabetic characters and `_`
may start an identifier, digits may merely continue one. -/
theorem c5_counterexample :
    ¬ (lexToken ("5".toList) = .error (.InvalidChar '5') ↔
        ¬(isRustAlphanumeric '5' = true ∨ '5' = '_' ∨
          '5' ∈ (['#', '(', ')', ',', ':', '"'] : List Char))) := by
  decide

/-- C5 (amended): for an input whose first non-whitespace character `c` is
ASCII, lexing the next token fails with `InvalidChar(c)` if and only if `c`
is not alphabetic, not `_`, not one of the punctuation characters
`# ( ) , :`, and not a double quote.  (ASCII digits therefore yield
`InvalidChar` when they start a token; non-ASCII characters are excluded
because Rust classifies them by the full Unicode Alphabetic property.) -/
theorem c5_invalid_char (ws : List Char) (c : Char) (rest : List Char)
    (hws : ∀ x ∈ ws, isRustWhitespace x = true)
    (hcws : isRustWhitespace c = false) (hascii : c.toNat < 128) :
    lexToken (ws ++ c :: rest) = .error (.InvalidChar c) ↔
      ¬(isRustAlphabetic c = true ∨ c = '_' ∨
        c ∈ (['#', '(', ')', ',', ':', '"'] : List Char)) := by
  constructor
  · intro h hcond
    rcases hcond with ha | hu | hpunct
    · have hid := lexToken_ident ws c
        (rest.takeWhile (fun x => isRustAlphanumeric x || x == '_'))
        (rest.dropWhile (fun x => isRustAlphanumeric x || x == '_')) hws (Or.inl ha)
        (by
          intro x hx
          rcases List.mem_cons.mp hx with rfl | hx
          · exact alpha_identChar (Or.inl ha)
          · have h'' := List.mem_takeWhile_imp hx
            exact h'')
        (dropWhile_head_false _ rest)
      rw [List.takeWhile_append_dropWhile] at hid
      rw [hid] at h
      cases h
    · have hid := lexToken_ident ws c
        (rest.takeWhile (fun x => isRustAlphanumeric x || x == '_'))
        (rest.dropWhile (fun x => isRustAlphanumeric x || x == '_')) hws (Or.inr hu)
        (by
          intro x hx
          rcases List.mem_cons.mp hx with rfl | hx
          · exact alpha_identChar (Or.inr hu)
          · have h'' := List.mem_takeWhile_imp hx
            exact h'')
        (dropWhile_head_false _ rest)
      rw [List.takeWhile_append_dropWhile] at hid
      rw [hid] at h
      cases h
    · simp only [List.mem_cons, List.not_mem_nil, or_false] at hpunct
      rcases hpunct with hq | hq | hq | hq | hq | hq <;> subst hq
      · rw [lexToken_punct ws '#' rest Token.Hash hws (by simp)] at h
        cases h
      · rw [lexToken_punct ws '(' rest Token.LeftParen hws (by simp)] at h
        cases h
      · rw [lexToken_punct ws ')' rest Token.RightParen hws (by simp)] at h
        cases h
      · rw [lexToken_punct ws ',' rest Token.Comma hws (by simp)] at h
        cases h
      · rw [lexToken_punct ws ':' rest Token.Colon hws (by simp)] at h
        cases h
      · have hsplit : rest.takeWhile (fun x => !(x == '"') && !(x == '\n')) ++
            rest.dropWhile (fun x => !(x == '"') && !(x == '\n')) = rest :=
          List.takeWhile_append_dropWhile (fun x => !(x == '"') && !(x == '\n')) rest
        have hct : ∀ x ∈ rest.takeWhile (fun x => !(x == '"') && !(x == '\n')),
            x ≠ '"' ∧ x ≠ '\n' := by
          intro x hx
          have := List.mem_takeWhile_imp hx
          simpa using this
        cases hdc : rest.dropWhile (fun x => !(x == '"') && !(x == '\n')) with
        | nil =>
          have hr : rest = rest.takeWhile (fun x => !(x == '"') && !(x == '\n')) := by
            conv_lhs => rw [← hsplit, hdc]
            simp
          rw [hr, lexToken_string_eof ws _ hws hct] at h
          injection h with h
          cases h
        | cons d ds =>
          have hd : (!(d == '"') && !(d == '\n')) = false :=
            dropWhile_head_false _ rest d (by rw [hdc]; rfl)
          have hd2 : d = '"' ∨ d = '\n' := by
            rcases Bool.and_eq_false_iff.mp hd with h' | h' <;>
              simp at h' <;> [exact Or.inl h'; exact Or.inr h']
          have hr : rest = rest.takeWhile (fun x => !(x == '"') && !(x == '\n')) ++ d :: ds := by
            conv_lhs => rw [← hsplit, hdc]
          rcases hd2 with rfl | rfl
          · rw [hr, lexToken_string_ok ws _ ds hws hct] at h
            cases h
          · rw [hr, lexToken_string_newline ws _ ds hws hct] at h
            injection h with h
            cases h
  · intro hcond
    have h1 : isRustAlphabetic c = false := by
      rcases Bool.eq_false_or_eq_true (isRustAlphabetic c) with h' | h'
      · exact absurd (Or.inl h' : isRustAlphabetic c = true ∨ c = '_' ∨
          c ∈ (['#', '(', ')', ',', ':', '"'] : List Char)) hcond
      · exact h'
    have h2 : c ≠ '_' := fun hh => hcond (Or.inr (Or.inl hh))
    have h3 : c ∉ (['#', '(', ')', ',', ':', '"'] : List Char) :=
      fun hh => hcond (Or.inr (Or.inr hh))
    rw [lexToken_invalid ws c rest hws hcws h1 h2 h3]

theorem c5_witness :
    lexToken ([] ++ '$' :: []) = .error (.InvalidChar '$') ↔
      ¬(isRustAlphabetic '$' = true ∨ '$' = '_' ∨
        '$' ∈ (['#', '(', ')', ',', ':', '"'] : List Char)) :=
  c5_invalid_char [] '$' [] (by decide) (by decide) (by decide)

/-- C3: whenever parsing reaches finalization with at least one of the three
mandatory slots unpopulated, `RenderPipelineConfig::parse` fails with
`MissingField` naming the first unpopulated slot in the declaration order
`name`, `vs_entry`, `fs_entry`; in particular
`#render_pipeline(name: "A", vs_entry: "B")` yields
`MissingField("fs_entry")` and `#render_pipeline()` yields
`MissingField("name")`. -/
theorem c3_missing_field (src : List Char) (nm vs fs : Option (List Char)) :
    (parse_body src = .ok (nm, vs, fs) → (nm = none ∨ vs = none ∨ fs = none) →
      RenderPipelineConfig.parse src = .error (.MissingField
        (if nm = none then "name".toList
         else if vs = none then "vs_entry".toList else "fs_entry".toList))) ∧
    RenderPipelineConfig.parse ("#render_pipeline(name: \"A\", vs_entry: \"B\")".toList) =
      .error (.MissingField ("fs_entry".toList)) ∧
    RenderPipelineConfig.parse ("#render_pipeline()".toList) =
      .error (.MissingField ("name".toList)) := by
  refine ⟨?_, by rfl, by rfl⟩
  intro h hmiss
  rw [RenderPipelineConfig.parse]
  simp only [h]
  cases nm with
  | none => simp [finalize]
  | some a =>
    cases vs with
    | none => simp [finalize]
    | some b =>
      cases fs with
      | none => simp [finalize]
      | some cc => rcases hmiss with h' | h' | h' <;> simp at h'

theorem c3_witness :
    RenderPipelineConfig.parse ("#render_pipeline()".toList) = .error (.MissingField
      (if (none : Option (List Char)) = none then "name".toList
       else if (none : Option (List Char)) = none then "vs_entry".toList
       else "fs_entry".toList)) :=
  (c3_missing_field ("#render_pipeline()".toList) none none none).1 (by rfl) (Or.inl rfl)

/-- C7 counterexample: tokenizing `"a"` produces the `StringLiteral` token
with payload span `a` (quotes excluded), but lexing that payload substring
as a fresh input yields the `Identifier` token `a`, not the same token —
the round-trip fails for string literals because their payload span drops
the quotes. -/
theorem c7_counterexample :
    tokenStreamNew ("\"a\"".toList) = .ok [Token.String ("a".toList)] ∧
    lexToken ("a".toList) = .ok (Token.Ident ("a".toList), none) ∧
    Token.String ("a".toList) ≠ Token.Ident ("a".toList) := by
  refine ⟨by rfl, by rfl, by decide⟩

/-- C7 (amended): the round-trip holds for `Identifier` tokens — for every
input that tokenizes successfully and every `Identifier` token in the
result, lexing the token's payload substring as a fresh input re-produces
exactly that token (consuming the whole payload).  For `StringLiteral`
tokens the round-trip fails in general, since the payload span excludes the
surrounding quotes. -/
theorem c7_ident_roundtrip (src : List Char) (toks : List Token) (p : List Char)
    (h : tokenStreamNew src = .ok toks) (hp : Token.Ident p ∈ toks) :
    lexToken p = .ok (.Ident p, none) := by
  have hshape : IdentShape p := by
    rw [tokenStreamNew] at h
    cases hlt : lexToken src with
    | error e =>
      simp only [hlt] at h
      cases h
    | ok pr =>
      obtain ⟨t, rem⟩ := pr
      simp only [hlt] at h
      refine tsLoop_ident_inv src.length [t] rem toks h ?_ p hp
      intro q hq
      have hq' : Token.Ident q = t := List.mem_singleton.mp hq
      rw [← hq'] at hlt
      exact lexToken_ident_inv hlt
  obtain ⟨c, cs, rfl, hc, hall⟩ := hshape
  have hfull := lexToken_ident [] c cs [] (by simp) hc
    (by intro x hx; exact hall x (by simpa using hx)) (by intro y hy; cases hy)
  simpa using hfull

theorem c7_witness : lexToken ("ab".toList) = .ok (.Ident ("ab".toList), none) :=
  c7_ident_roundtrip ("ab".toList) [Token.Ident ("ab".toList)] ("ab".toList)
    (by rfl) (by simp)

/-- C1: every record text `#render_pipeline( ... )` binding exactly the
three fields `name`, `vs_entry`, `fs_entry` to string literals, in any
order, with or without a trailing comma before `)`, parses successfully,
and the resulting record's `name`, `vs_entry` and `fs_entry` fields hold
exactly the corresponding string-literal contents. -/
theorem c1_parse_three_fields (s1 s2 s3 : List Char)
    (hs1 : ∀ x ∈ s1, x ≠ '"' ∧ x ≠ '\n') (hs2 : ∀ x ∈ s2, x ≠ '"' ∧ x ≠ '\n')
    (hs3 : ∀ x ∈ s3, x ≠ '"' ∧ x ≠ '\n')
    (f1 f2 f3 : List Char)
    (hperm : ([f1, f2, f3] : List (List Char)).Perm
      ["name".toList, "vs_entry".toList, "fs_entry".toList])
    (tr : Bool) :
    RenderPipelineConfig.parse (buildInput f1 s1 f2 s2 f3 s3 tr) =
      .ok ⟨fieldValue f1 s1 f2 s2 f3 s3 ("name".toList),
           fieldValue f1 s1 f2 s2 f3 s3 ("vs_entry".toList),
           fieldValue f1 s1 f2 s2 f3 s3 ("fs_entry".toList)⟩ := by
  rcases perm3 hperm with hp6 | hp6 | hp6 | hp6 | hp6 | hp6 <;>
    obtain ⟨rfl, rfl, rfl⟩ := hp6 <;> cases tr <;>
  · rw [RenderPipelineConfig.parse, parse_body, tokenStreamNew_buildInput] <;>
      first
        | rfl
        | exact ⟨_, _, rfl, by decide, by decide⟩
        | exact hs1
        | exact hs2
        | exact hs3

theorem c1_witness :
    RenderPipelineConfig.parse (buildInput ("vs_entry".toList) ("B".toList)
        ("name".toList) ("A".toList) ("fs_entry".toList) ("C".toList) true) =
      .ok ⟨fieldValue ("vs_entry".toList) ("B".toList) ("name".toList) ("A".toList)
            ("fs_entry".toList) ("C".toList) ("name".toList),
           fieldValue ("vs_entry".toList) ("B".toList) ("name".toList) ("A".toList)
            ("fs_entry".toList) ("C".toList) ("vs_entry".toList),
           fieldValue ("vs_entry".toList) ("B".toList) ("name".toList) ("A".toList)
            ("fs_entry".toList) ("C".toList) ("fs_entry".toList)⟩ :=
  c1_parse_three_fields ("B".toList) ("A".toList) ("C".toList)
    (by decide) (by decide) (by decide)
    ("vs_entry".toList) ("name".toList) ("fs_entry".toList)
    (by
      have h1 : (["vs_entry".toList, "name".toList, "fs_entry".toList] :
          List (List Char)).Perm ["name".toList, "vs_entry".toList, "fs_entry".toList] :=
        List.Perm.swap ("name".toList) ("vs_entry".toList) ["fs_entry".toList]
      exact h1) true

end CodeGen
